import Mathlib

/-!
Gamepad to vJoy steering-wheel feeder (`src/contoller.cpp`).

Shallow embedding of the per-tick input-shaping pipeline of `main` and of its
helpers `clamp`, `apply_gamma`, `normAxis`, in two readings of C++ `float`.

* The exact reading: `float` arithmetic is exact arithmetic in a linearly
  ordered field `α`; the definitions are generic in `α` (so they evaluate on
  `ℚ`), the theorems are stated over `ℝ`. It has no rounding, no infinity and
  no not-a-number, and `0 / 0` is `0` in it.
* The binary32 reading (`F32`, namespace `Binary32`): a value is
  not-a-number, an infinity or a finite number, and every operation rounds to
  the nearest binary32 number. Statements that depend on rounding or on
  non-finite values are settled on this reading.
* `powf` is a C library function, not code of this repository: every
  definition that calls it takes it as the parameter `powf`; the theorems over
  `ℝ` instantiate it with the real power `Real.rpow`, the theorems on the
  binary32 reading state what they need of it.
* The fields of `XINPUT_STATE::Gamepad` are machine integers (`SHORT`, `BYTE`,
  `WORD`); they are modelled as `Int`/`Nat`, their ranges are stated by
  `Gamepad.wf`.
-/

namespace Contoller

/-! ## Data model -/

/-- The fields of `XINPUT_STATE::Gamepad` that the main loop reads. -/
structure Gamepad where
  /-- Field `WORD wButtons`: 16-bit button mask. -/
  wButtons : Nat
  /-- Field `BYTE bLeftTrigger`. -/
  bLeftTrigger : Nat
  /-- Field `BYTE bRightTrigger`. -/
  bRightTrigger : Nat
  /-- Field `SHORT sThumbLX`. -/
  sThumbLX : Int
deriving Repr, DecidableEq

/-- Ranges of the machine integer types of the snapshot fields. -/
def Gamepad.wf (g : Gamepad) : Prop :=
  g.wButtons < 65536 ∧ g.bLeftTrigger < 256 ∧ g.bRightTrigger < 256 ∧
    -32768 ≤ g.sThumbLX ∧ g.sThumbLX ≤ 32767

instance (g : Gamepad) : Decidable g.wf := by
  unfold Gamepad.wf; infer_instance

/-- The zero-initialised snapshot `XINPUT_STATE s{}`. -/
def zeroGamepad : Gamepad :=
  { wButtons := 0, bLeftTrigger := 0, bRightTrigger := 0, sThumbLX := 0 }

/-- Button mask `XINPUT_GAMEPAD_X` of `Xinput.h`. -/
def XINPUT_GAMEPAD_X : Nat := 0x4000

/-- Button mask `XINPUT_GAMEPAD_B` of `Xinput.h`. -/
def XINPUT_GAMEPAD_B : Nat := 0x2000

/-- The values `main` loads from `config.ini` and keeps for the whole run
(`angleLimit` is derived from `max_angle`, see `angleLimitOf`). -/
structure Config (α : Type) where
  deadzone : α
  gamma : α
  alphaWheelBase : α
  centerSpring : α
  angleLimit : α
  alphaPedal : α

/-- The three persistent positions of the main loop. -/
structure State (α : Type) where
  steer : α
  gas : α
  brake : α

/-- What one pass of the loop body hands to the vJoy driver: the three
`SetAxis` values and the sixteen `SetBtn` values (button `i+1` at index `i`). -/
structure Output where
  axisX : Int
  axisY : Int
  axisZ : Int
  buttons : List Bool
deriving Repr, DecidableEq

/-- Device id `VJOY_ID` of the source. -/
def VJOY_ID : Nat := 1

/-- HID usage `HID_X` of the source. -/
def HID_X : Nat := 0x30

/-- HID usage `HID_Y` of the source. -/
def HID_Y : Nat := 0x31

/-- HID usage `HID_Z` of the source. -/
def HID_Z : Nat := 0x32

/-- One call into the vJoy driver, with its arguments in source order:
`SetAxis(value, rID, axis)` or `SetBtn(value, rID, nBtn)`. -/
inductive Call where
  | SetAxis (value : Int) (rID : Nat) (axis : Nat)
  | SetBtn (value : Bool) (rID : Nat) (nBtn : Nat)
deriving Repr, DecidableEq

/-- The values passed to `SetAxis` for one axis, in call order. -/
def axisValues (calls : List Call) (axis : Nat) : List Int :=
  calls.filterMap fun c =>
    match c with
    | Call.SetAxis v _ a => if a = axis then some v else none
    | Call.SetBtn _ _ _ => none

/-- The values passed to `SetBtn` for one button number, in call order. -/
def btnValues (calls : List Call) (nBtn : Nat) : List Bool :=
  calls.filterMap fun c =>
    match c with
    | Call.SetAxis _ _ _ => none
    | Call.SetBtn v _ n => if n = nBtn then some v else none

/-- The read at the top of the loop body, `XINPUT_STATE s{}; XInputGetState(0, &s);`:
a successful read fills the snapshot, a failed one (`none`) leaves the
zero-initialised snapshot untouched. The return code is not inspected. -/
def readSnapshot (r : Option Gamepad) : Gamepad :=
  match r with
  | none => zeroGamepad
  | some g => g

section Defs

variable {α : Type} [LinearOrderedField α]

/-! ## Helpers of the source -/

/-- Source `iniFloat`: the default when the key is missing (empty buffer), else the
parsed value. The lookup itself is the Windows profile API. -/
def iniFloat (found : Option α) (dflt : α) : α :=
  match found with
  | none => dflt
  | some v => v

/-- Source `float clamp(float v, float a, float b)`. -/
def clamp (v a b : α) : α :=
  if v < a then a else (if v > b then b else v)

/-- Source `float apply_gamma(float v, float gamma)`. -/
def apply_gamma (powf : α → α → α) (v gamma : α) : α :=
  let s : α := if v ≥ 0 then 1 else -1
  s * powf |v| gamma

/-- The conversion `LONG(x)`: truncation toward zero. -/
def toLONG [FloorRing α] (x : α) : Int :=
  if 0 ≤ x then ⌊x⌋ else ⌈x⌉

/-- Source `LONG normAxis(float v)` on the exact reading: sum and product are
exact before the truncation (the binary32 encoder is `Binary32.normAxis`). -/
def normAxis [FloorRing α] (v : α) : Int :=
  let v := clamp v (-1) 1
  toLONG ((v + 1) * 16383.5)

/-- The travel limit `angleLimit = clamp(maxAngleDeg / 900.f, 0.1f, 1.f)`. -/
def angleLimitOf (maxAngleDeg : Int) : α :=
  clamp ((maxAngleDeg : α) / 900) 0.1 1

/-- The "Load config" block of `main`: each float key through `iniFloat` with
its default, `max_angle` turned into `angleLimit`. -/
def loadConfig (deadzone gamma alpha centerSpring : Option α) (maxAngleDeg : Int)
    (alphaPedal : Option α) : Config α :=
  { deadzone := iniFloat deadzone 0.06
    gamma := iniFloat gamma 1.3
    alphaWheelBase := iniFloat alpha 0.04
    centerSpring := iniFloat centerSpring 0.12
    angleLimit := angleLimitOf maxAngleDeg
    alphaPedal := iniFloat alphaPedal 0.3 }

/-! ## The loop body -/

/-- The stick normalisation `float raw = s.Gamepad.sThumbLX / 32768.f`. -/
def rawStick (sThumbLX : Int) : α :=
  (sThumbLX : α) / 32768

/-- The deadzone stage: the `if (fabs(raw) < deadzone) … else …` of the loop,
on the exact reading (at `deadzone = 1` and `|raw| = 1` the field gives
`0 / 0 = 0` where binary32 gives not-a-number, see `Binary32.deadzoneStage`). -/
def deadzoneStage (raw deadzone : α) : α :=
  if |raw| < deadzone then 0
  else (|raw| - deadzone) / (1 - deadzone) * (if raw > 0 then 1 else -1)

/-- Source `alphaWheelCurrent`: the base coefficient after the two modifier tests. -/
def alphaWheelCurrent (alphaWheelBase : α) (wButtons : Nat) : α :=
  let xPressed : Bool := (wButtons &&& XINPUT_GAMEPAD_X) != 0
  let bPressed : Bool := (wButtons &&& XINPUT_GAMEPAD_B) != 0
  let a := alphaWheelBase
  let a := if xPressed then a * 1.5 else a
  let a := if bPressed then a * 0.5 else a
  a

/-- The steering update on the deadzone-normalised value `raw`: centering or
tracking branch, then the clamp to `[-angleLimit, angleLimit]`, on the exact
reading (no rounding; the binary32 update is `Binary32.steerStep`). -/
def steerStep (powf : α → α → α) (cfg : Config α) (raw : α) (wButtons : Nat)
    (steer : α) : α :=
  let steer :=
    if raw = 0 then
      let k := clamp (|steer| * 2.5) 0.15 1.0
      steer + (0 - steer) * cfg.centerSpring * k
    else
      let target := apply_gamma powf raw cfg.gamma * cfg.angleLimit
      steer + (target - steer) * alphaWheelCurrent cfg.alphaWheelBase wButtons
  clamp steer (-cfg.angleLimit) cfg.angleLimit

/-- The gas/brake update: `p += ((trigger / 255.f * 2.f - 1.f) - p) * alphaPedal`
followed by the clamp to `[-1, 1]`, on the exact reading (no rounding, finite
coefficient; the binary32 update is `Binary32.pedalStep`). -/
def pedalStep (alphaPedal : α) (trigger : Nat) (p : α) : α :=
  let rawPedal : α := (trigger : α) / 255
  let p := p + ((rawPedal * 2 - 1) - p) * alphaPedal
  clamp p (-1) 1

/-- The button loop: `SetBtn((buttons & (1 << i)) != 0, VJOY_ID, i + 1)` for
`i = 0 .. 15`. -/
def buttonStates (wButtons : Nat) : List Bool :=
  (List.range 16).map fun i => (wButtons &&& (1 <<< i)) != 0

/-- The new state after one pass of the loop body. -/
def tick (powf : α → α → α) (cfg : Config α) (s : Gamepad) (st : State α) : State α :=
  let raw := deadzoneStage (rawStick s.sThumbLX) cfg.deadzone
  { steer := steerStep powf cfg raw s.wButtons st.steer
    gas := pedalStep cfg.alphaPedal s.bRightTrigger st.gas
    brake := pedalStep cfg.alphaPedal s.bLeftTrigger st.brake }

/-- The values one pass of the loop body emits (computed from the updated
positions). -/
def emit [FloorRing α] (powf : α → α → α) (cfg : Config α) (s : Gamepad)
    (st : State α) : Output :=
  let st1 := tick powf cfg s st
  { axisX := normAxis st1.steer
    axisY := normAxis st1.gas
    axisZ := normAxis st1.brake
    buttons := buttonStates s.wButtons }

/-- The state block before the loop: `steer = 0`, `gas = brake = -1`. -/
def initState : State α :=
  { steer := 0, gas := -1, brake := -1 }

/-- The three `SetAxis` calls before the loop. -/
def initOutput [FloorRing α] : Int × Int × Int :=
  (normAxis (0 : α), normAxis (-1 : α), normAxis (-1 : α))

/-- The driver calls of one pass of the loop body, in source order: `SetAxis`
for X, Y, Z with the encoded updated positions, then `SetBtn` for
`i = 0 .. 15`. -/
def tickCalls [FloorRing α] (powf : α → α → α) (cfg : Config α) (s : Gamepad)
    (st : State α) : List Call :=
  let st1 := tick powf cfg s st
  [Call.SetAxis (normAxis st1.steer) VJOY_ID HID_X,
   Call.SetAxis (normAxis st1.gas) VJOY_ID HID_Y,
   Call.SetAxis (normAxis st1.brake) VJOY_ID HID_Z] ++
    (List.range 16).map fun i => Call.SetBtn ((s.wButtons &&& (1 <<< i)) != 0) VJOY_ID (i + 1)

/-- The three `SetAxis` calls before the loop, as driver calls. -/
def initCalls (α : Type) [LinearOrderedField α] [FloorRing α] : List Call :=
  [Call.SetAxis (normAxis (0 : α)) VJOY_ID HID_X,
   Call.SetAxis (normAxis (-1 : α)) VJOY_ID HID_Y,
   Call.SetAxis (normAxis (-1 : α)) VJOY_ID HID_Z]

/-- One pass of the `while (true)` body from the read on: the next state and
the driver calls. The body has no `break` or `return`, so every pass hands
over to the next one. -/
def loopBody [FloorRing α] (powf : α → α → α) (cfg : Config α) (r : Option Gamepad)
    (st : State α) : State α × List Call :=
  let s := readSnapshot r
  (tick powf cfg s st, tickCalls powf cfg s st)

/-- The Filter Configuration invariant in the words of the spec (section 3):
deadzone in `[0,1)`, smoothing and spring coefficients in `[0,1]`, travel-limit
fraction in `(0,1]`. It is a predicate of the spec, the source has no such
check. -/
def Config.inDomain (cfg : Config α) : Prop :=
  (0 ≤ cfg.deadzone ∧ cfg.deadzone < 1) ∧
    (0 ≤ cfg.alphaWheelBase ∧ cfg.alphaWheelBase ≤ 1) ∧
    (0 ≤ cfg.centerSpring ∧ cfg.centerSpring ≤ 1) ∧
    (0 ≤ cfg.alphaPedal ∧ cfg.alphaPedal ≤ 1) ∧
    (0 < cfg.angleLimit ∧ cfg.angleLimit ≤ 1)

instance (cfg : Config α) : Decidable cfg.inDomain := by
  unfold Config.inDomain; infer_instance

/-- The state after `n` passes of the loop, pass `i` reading snapshot `snaps i`. -/
def stateAfter (powf : α → α → α) (cfg : Config α) (snaps : Nat → Gamepad)
    (st : State α) : Nat → State α
  | 0 => st
  | n + 1 => tick powf cfg (snaps n) (stateAfter powf cfg snaps st n)

end Defs

/-! ## The binary32 reading of the same code

The definitions above read `float` as an exact ordered field. The ones below
read it as IEEE 754 binary32: a value is not-a-number, an infinity or a finite
number, and every arithmetic operation rounds its exact result to the nearest
binary32 number, ties to even, with gradual underflow and overflow to infinity.
The sign of zero is not modelled. `powf` stays a parameter. -/

/-- A binary32 value (without the sign of zero). A finite value is carried as
a rational; the operations only produce binary32 numbers. -/
inductive F32 where
  | nan
  | ninf
  | pinf
  | fin (q : ℚ)
deriving DecidableEq, Repr

namespace F32

/-- Round to the nearest integer, ties to even. -/
def rne (x : ℚ) : ℤ :=
  if x - ⌊x⌋ < 1 / 2 then ⌊x⌋
  else if 1 / 2 < x - ⌊x⌋ then ⌊x⌋ + 1
  else if ⌊x⌋ % 2 = 0 then ⌊x⌋ else ⌊x⌋ + 1

/-- The exponent of the unit in the last place at magnitude `x > 0`: a 24-bit
significand, and the fixed spacing `2^-149` below `2^-126`. -/
def ulpExp (x : ℚ) : ℤ := max (Int.log 2 x) (-126) - 23

/-- Rounding of a magnitude `x ≥ 0` to a multiple of its unit in the last place. -/
def roundMag (x : ℚ) : ℚ := rne (x / 2 ^ ulpExp x) * 2 ^ ulpExp x

/-- Rounding of a rational to the binary32 grid, before the overflow test. -/
def roundQ (x : ℚ) : ℚ := if x < 0 then -roundMag (-x) else roundMag x

/-- The binary32 result of an operation whose exact result is `x`. -/
def rnd (x : ℚ) : F32 :=
  if 2 ^ 128 ≤ roundQ x then pinf
  else if roundQ x ≤ -2 ^ 128 then ninf
  else fin (roundQ x)

/-- Unary minus. -/
def neg : F32 → F32
  | nan => nan
  | ninf => pinf
  | pinf => ninf
  | fin a => fin (-a)

/-- The library function `fabs`. -/
def fabs : F32 → F32
  | nan => nan
  | ninf => pinf
  | pinf => pinf
  | fin a => fin |a|

/-- Addition. -/
def add : F32 → F32 → F32
  | nan, _ => nan
  | _, nan => nan
  | pinf, ninf => nan
  | ninf, pinf => nan
  | pinf, _ => pinf
  | _, pinf => pinf
  | ninf, _ => ninf
  | _, ninf => ninf
  | fin a, fin b => rnd (a + b)

/-- Subtraction. -/
def sub (a b : F32) : F32 := add a (neg b)

/-- The product of an infinity (positive when `pos`) and the finite `a`. -/
def mulInf (pos : Bool) (a : ℚ) : F32 :=
  if a = 0 then nan
  else if 0 < a then (if pos then pinf else ninf)
  else (if pos then ninf else pinf)

/-- Multiplication. -/
def mul : F32 → F32 → F32
  | nan, _ => nan
  | _, nan => nan
  | pinf, pinf => pinf
  | ninf, ninf => pinf
  | pinf, ninf => ninf
  | ninf, pinf => ninf
  | pinf, fin a => mulInf true a
  | fin a, pinf => mulInf true a
  | ninf, fin a => mulInf false a
  | fin a, ninf => mulInf false a
  | fin a, fin b => rnd (a * b)

/-- Division. A zero divisor counts as `+0`. -/
def div : F32 → F32 → F32
  | nan, _ => nan
  | _, nan => nan
  | fin _, pinf => fin 0
  | fin _, ninf => fin 0
  | pinf, fin b => if 0 ≤ b then pinf else ninf
  | ninf, fin b => if 0 ≤ b then ninf else pinf
  | pinf, _ => nan
  | ninf, _ => nan
  | fin a, fin b =>
    if b = 0 then (if a = 0 then nan else if 0 < a then pinf else ninf) else rnd (a / b)

/-- Comparison `<`: false as soon as an operand is not a number. -/
def lt : F32 → F32 → Bool
  | fin a, fin b => decide (a < b)
  | ninf, fin _ => true
  | ninf, pinf => true
  | fin _, pinf => true
  | _, _ => false

/-- Comparison `>`. -/
def gt (a b : F32) : Bool := lt b a

/-- Comparison `==`: false as soon as an operand is not a number. -/
def eq : F32 → F32 → Bool
  | fin a, fin b => decide (a = b)
  | pinf, pinf => true
  | ninf, ninf => true
  | _, _ => false

/-- Comparison `>=`. -/
def ge (a b : F32) : Bool := gt a b || eq a b

/-- Comparison `<=`. -/
def le (a b : F32) : Bool := lt a b || eq a b

end F32

namespace Binary32

open F32

/-- Source `float clamp(float v, float a, float b)`. -/
def clamp (v a b : F32) : F32 :=
  if lt v a then a else (if gt v b then b else v)

/-- Source `float apply_gamma(float v, float gamma)`. -/
def apply_gamma (powf : F32 → F32 → F32) (v gamma : F32) : F32 :=
  let s : F32 := if ge v (fin 0) then fin 1 else fin (-1)
  mul s (powf (fabs v) gamma)

/-- The conversion `LONG(x)`: truncation toward zero of a finite value within
the range of `LONG`; the conversion of any other value is undefined. -/
def toLONG : F32 → Option Int
  | fin x =>
    if -2147483649 < x ∧ x < 2147483648 then some (if 0 ≤ x then ⌊x⌋ else ⌈x⌉) else none
  | _ => none

/-- Source `LONG normAxis(float v)`. -/
def normAxis (v : F32) : Option Int :=
  let v := clamp v (fin (-1)) (fin 1)
  toLONG (mul (add v (fin 1)) (fin 16383.5))

/-- The conversion of an integer to `float`. -/
def ofInt (n : Int) : F32 := rnd n

/-- The travel limit `angleLimit = clamp(maxAngleDeg / 900.f, 0.1f, 1.f)`. -/
def angleLimitOf (maxAngleDeg : Int) : F32 :=
  clamp (div (ofInt maxAngleDeg) (fin 900)) (rnd 0.1) (fin 1)

/-- The stick normalisation `float raw = s.Gamepad.sThumbLX / 32768.f`. -/
def rawStick (sThumbLX : Int) : F32 :=
  div (ofInt sThumbLX) (fin 32768)

/-- The deadzone stage: the `if (fabs(raw) < deadzone) … else …` of the loop. -/
def deadzoneStage (raw deadzone : F32) : F32 :=
  if lt (fabs raw) deadzone then fin 0
  else mul (div (sub (fabs raw) deadzone) (sub (fin 1) deadzone))
    (if gt raw (fin 0) then fin 1 else fin (-1))

/-- Source `alphaWheelCurrent`: the base coefficient after the two modifier
tests. -/
def alphaWheelCurrent (alphaWheelBase : F32) (wButtons : Nat) : F32 :=
  let xPressed : Bool := (wButtons &&& XINPUT_GAMEPAD_X) != 0
  let bPressed : Bool := (wButtons &&& XINPUT_GAMEPAD_B) != 0
  let a := alphaWheelBase
  let a := if xPressed then mul a (fin 1.5) else a
  let a := if bPressed then mul a (fin 0.5) else a
  a

/-- The steering update on the deadzone-normalised value `raw`: centering or
tracking branch, then the clamp to `[-angleLimit, angleLimit]`. -/
def steerStep (powf : F32 → F32 → F32) (cfg : Config F32) (raw : F32) (wButtons : Nat)
    (steer : F32) : F32 :=
  let steer :=
    if eq raw (fin 0) then
      let k := clamp (mul (fabs steer) (fin 2.5)) (rnd 0.15) (fin 1)
      add steer (mul (mul (sub (fin 0) steer) cfg.centerSpring) k)
    else
      let target := mul (apply_gamma powf raw cfg.gamma) cfg.angleLimit
      add steer (mul (sub target steer) (alphaWheelCurrent cfg.alphaWheelBase wButtons))
  clamp steer (neg cfg.angleLimit) cfg.angleLimit

/-- The gas/brake update: `p += ((trigger / 255.f * 2.f - 1.f) - p) * alphaPedal`
followed by the clamp to `[-1, 1]`. -/
def pedalStep (alphaPedal : F32) (trigger : Nat) (p : F32) : F32 :=
  let rawPedal : F32 := div (ofInt trigger) (fin 255)
  let p := add p (mul (sub (sub (mul rawPedal (fin 2)) (fin 1)) p) alphaPedal)
  clamp p (fin (-1)) (fin 1)

/-- The new state after one pass of the loop body. -/
def tick (powf : F32 → F32 → F32) (cfg : Config F32) (s : Gamepad) (st : State F32) :
    State F32 :=
  let raw := deadzoneStage (rawStick s.sThumbLX) cfg.deadzone
  { steer := steerStep powf cfg raw s.wButtons st.steer
    gas := pedalStep cfg.alphaPedal s.bRightTrigger st.gas
    brake := pedalStep cfg.alphaPedal s.bLeftTrigger st.brake }

/-- The smallest positive binary32 number `2^-149`, what `iniFloat` returns
for the entry `1e-45`. -/
def denormMin : ℚ := 2 ^ (-149 : ℤ)

/-- The state block before the loop: `steer = 0`, `gas = brake = -1`. -/
def initState : State F32 :=
  { steer := fin 0, gas := fin (-1), brake := fin (-1) }

/-- The state after `n` passes of the loop, pass `i` reading snapshot `snaps i`. -/
def stateAfter (powf : F32 → F32 → F32) (cfg : Config F32) (snaps : Nat → Gamepad)
    (st : State F32) : Nat → State F32
  | 0 => st
  | n + 1 => tick powf cfg (snaps n) (stateAfter powf cfg snaps st n)

end Binary32

/-! ## Executable checks of the embedding on `ℚ` -/

theorem clamp_eval : clamp (3 : ℚ) 0 1 = 1 := by decide
theorem deadzoneStage_eval : deadzoneStage (1/2 : ℚ) (3/50) = 22/47 := by
  have h : |(1/2 : ℚ)| = 1/2 := abs_of_pos (by norm_num)
  norm_num [deadzoneStage, h]
theorem buttonStates_eval : buttonStates 5 = [true, false, true, false, false, false, false, false,
    false, false, false, false, false, false, false, false] := by decide
theorem normAxis_eval : normAxis (0 : ℚ) = 16383 := by
  norm_num [normAxis, clamp, toLONG, Int.floor_eq_iff]

/-! ## Facts about the driver-call trace -/

theorem axisValues_append (l1 l2 : List Call) (axis : Nat) :
    axisValues (l1 ++ l2) axis = axisValues l1 axis ++ axisValues l2 axis := by
  simp [axisValues, List.filterMap_append]

theorem btnValues_append (l1 l2 : List Call) (nBtn : Nat) :
    btnValues (l1 ++ l2) nBtn = btnValues l1 nBtn ++ btnValues l2 nBtn := by
  simp [btnValues, List.filterMap_append]

/-- A run of `SetBtn` calls holds no axis value. -/
theorem axisValues_buttons (f : Nat → Bool) (l : List Nat) (axis : Nat) :
    axisValues (l.map fun i => Call.SetBtn (f i) VJOY_ID (i + 1)) axis = [] := by
  induction l with
  | nil => rfl
  | cons x xs ih =>
    simp only [List.map_cons, axisValues, List.filterMap_cons] at ih ⊢
    exact ih

/-- The button loop over `i = 0 .. N-1` sets button `n` once if `1 ≤ n ≤ N`,
with the value computed for `i = n - 1`, and not at all otherwise. -/
theorem btnValues_buttons (f : Nat → Bool) (N n : Nat) :
    btnValues ((List.range N).map fun i => Call.SetBtn (f i) VJOY_ID (i + 1)) n =
      if 1 ≤ n ∧ n ≤ N then [f (n - 1)] else [] := by
  induction N with
  | zero =>
    have h : ¬ (1 ≤ n ∧ n ≤ 0) := by omega
    simp only [List.range_zero, List.map_nil, if_neg h]
    rfl
  | succ N ih =>
    rw [List.range_succ, List.map_append, btnValues_append, ih]
    by_cases hn : N + 1 = n
    · subst hn
      have h1 : ¬ (1 ≤ N + 1 ∧ N + 1 ≤ N) := by omega
      have h2 : 1 ≤ N + 1 ∧ N + 1 ≤ N + 1 := by omega
      simp [btnValues, h1, h2]
    · have hlast : btnValues [Call.SetBtn (f N) VJOY_ID (N + 1)] n = [] := by
        simp [btnValues, hn]
      simp only [List.map_cons, List.map_nil, hlast, List.append_nil]
      by_cases h1 : 1 ≤ n ∧ n ≤ N
      · have h2 : 1 ≤ n ∧ n ≤ N + 1 := by omega
        rw [if_pos h1, if_pos h2]
      · have h2 : ¬ (1 ≤ n ∧ n ≤ N + 1) := by omega
        rw [if_neg h1, if_neg h2]

/-- The mask test of the button loop is the test of bit `i`. -/
theorem mask_test_eq_testBit (w i : Nat) : ((w &&& (1 <<< i)) != 0) = w.testBit i := by
  rw [Nat.one_shiftLeft, Nat.and_two_pow]
  cases h : w.testBit i
  · simp
  · simp

/-! ## Basic facts about the helpers -/

section Lemmas

variable {α : Type} [LinearOrderedField α]

theorem clamp_ge (v : α) {a b : α} (h : a ≤ b) : a ≤ clamp v a b := by
  unfold clamp
  split_ifs with h1 h2
  · exact le_refl a
  · exact h
  · exact not_lt.mp h1

theorem clamp_le (v : α) {a b : α} (h : a ≤ b) : clamp v a b ≤ b := by
  unfold clamp
  split_ifs with h1 h2
  · exact h
  · exact le_refl b
  · exact not_lt.mp h2

theorem clamp_eq_self {v a b : α} (h1 : a ≤ v) (h2 : v ≤ b) : clamp v a b = v := by
  unfold clamp
  rw [if_neg (not_lt.mpr h1), if_neg (not_lt.mpr h2)]

theorem clamp_abs_le (v : α) {b : α} (h : 0 ≤ b) : |clamp v (-b) b| ≤ b := by
  have hab : -b ≤ b := by linarith
  exact abs_le.mpr ⟨clamp_ge v hab, clamp_le v hab⟩

theorem angleLimitOf_bounds (maxAngleDeg : Int) :
    (0.1 : α) ≤ angleLimitOf maxAngleDeg ∧ (angleLimitOf maxAngleDeg : α) ≤ 1 := by
  have h : (0.1 : α) ≤ 1 := by norm_num
  exact ⟨clamp_ge _ h, clamp_le _ h⟩

theorem angleLimitOf_pos (maxAngleDeg : Int) : (0 : α) < angleLimitOf maxAngleDeg :=
  lt_of_lt_of_le (by norm_num) (angleLimitOf_bounds maxAngleDeg).1

theorem steerStep_abs_le (powf : α → α → α) (cfg : Config α) (raw : α) (w : Nat)
    (steer : α) (h : 0 ≤ cfg.angleLimit) :
    |steerStep powf cfg raw w steer| ≤ cfg.angleLimit := by
  unfold steerStep
  exact clamp_abs_le _ h

theorem pedalStep_bounds (alphaPedal : α) (trigger : Nat) (p : α) :
    -1 ≤ pedalStep alphaPedal trigger p ∧ pedalStep alphaPedal trigger p ≤ 1 := by
  have h : (-1 : α) ≤ 1 := by norm_num
  unfold pedalStep
  exact ⟨clamp_ge _ h, clamp_le _ h⟩

/-- The steering bound alone: it needs nothing of the pedals. -/
theorem stateAfter_steer_abs_le (powf : α → α → α) (cfg : Config α) (snaps : Nat → Gamepad)
    (st : State α) (hs : |st.steer| ≤ cfg.angleLimit) (n : Nat) :
    |(stateAfter powf cfg snaps st n).steer| ≤ cfg.angleLimit := by
  cases n with
  | zero => exact hs
  | succ n =>
    simp only [stateAfter, tick]
    exact steerStep_abs_le _ _ _ _ _ (le_trans (abs_nonneg _) hs)

/-- The shaper-state invariant for any power function and any state that
already satisfies it. -/
theorem stateAfter_invariant (powf : α → α → α) (cfg : Config α) (snaps : Nat → Gamepad)
    (st : State α) (hL : 0 ≤ cfg.angleLimit) (hs : |st.steer| ≤ cfg.angleLimit)
    (hg : -1 ≤ st.gas ∧ st.gas ≤ 1) (hb : -1 ≤ st.brake ∧ st.brake ≤ 1) (n : Nat) :
    |(stateAfter powf cfg snaps st n).steer| ≤ cfg.angleLimit ∧
      (-1 ≤ (stateAfter powf cfg snaps st n).gas ∧
        (stateAfter powf cfg snaps st n).gas ≤ 1) ∧
      (-1 ≤ (stateAfter powf cfg snaps st n).brake ∧
        (stateAfter powf cfg snaps st n).brake ≤ 1) := by
  cases n with
  | zero => exact ⟨hs, hg, hb⟩
  | succ n =>
    simp only [stateAfter, tick]
    exact ⟨steerStep_abs_le _ _ _ _ _ hL, pedalStep_bounds _ _ _, pedalStep_bounds _ _ _⟩

theorem deadzoneStage_of_lt {v deadzone : α} (h : |v| < deadzone) :
    deadzoneStage v deadzone = 0 := by
  unfold deadzoneStage
  exact if_pos h

/-- The spring gain `k` of the centering branch lies in `[0.15, 1]`. -/
theorem centerGain_bounds (p : α) :
    (0.15 : α) ≤ clamp (|p| * 2.5) 0.15 1.0 ∧ clamp (|p| * 2.5) 0.15 1.0 ≤ (1 : α) := by
  have h : (0.15 : α) ≤ 1.0 := by norm_num
  refine ⟨clamp_ge _ h, ?_⟩
  have h2 := clamp_le (|p| * 2.5) h
  norm_num at h2 ⊢
  exact h2

/-- The centering branch, for a spring coefficient in `[0,1]` and a position
within the travel limit: the position is scaled by `1 - centerSpring * k` and
the final clamp changes nothing. -/
theorem steerStep_center (powf : α → α → α) (cfg : Config α) (w : Nat) (p : α)
    (hc0 : 0 ≤ cfg.centerSpring) (hc1 : cfg.centerSpring ≤ 1)
    (hp : |p| ≤ cfg.angleLimit) :
    steerStep powf cfg 0 w p =
      p * (1 - cfg.centerSpring * clamp (|p| * 2.5) 0.15 1.0) := by
  obtain ⟨hk0, hk1⟩ := centerGain_bounds p
  have hk0' : (0 : α) ≤ clamp (|p| * 2.5) 0.15 1.0 := le_trans (by norm_num) hk0
  have hq0 : 0 ≤ 1 - cfg.centerSpring * clamp (|p| * 2.5) 0.15 1.0 := by nlinarith
  have hq1 : 1 - cfg.centerSpring * clamp (|p| * 2.5) 0.15 1.0 ≤ 1 := by nlinarith
  have habs : |p * (1 - cfg.centerSpring * clamp (|p| * 2.5) 0.15 1.0)| ≤ cfg.angleLimit := by
    rw [abs_mul, abs_of_nonneg hq0]
    have := abs_nonneg p
    nlinarith
  have heq : p + (0 - p) * cfg.centerSpring * clamp (|p| * 2.5) 0.15 1.0 =
      p * (1 - cfg.centerSpring * clamp (|p| * 2.5) 0.15 1.0) := by ring
  unfold steerStep
  simp only [if_true]
  rw [heq]
  exact clamp_eq_self (abs_le.mp habs).1 (abs_le.mp habs).2

/-- Under sustained zero effective input every later steering position is the
previous one scaled by a factor in `[0, 1 - 0.15 * centerSpring]`. -/
theorem centering_factor (powf : α → α → α) (cfg : Config α) (snaps : Nat → Gamepad)
    (st : State α) (hc0 : 0 ≤ cfg.centerSpring) (hc1 : cfg.centerSpring ≤ 1)
    (hp : |st.steer| ≤ cfg.angleLimit)
    (hz : ∀ i, deadzoneStage (rawStick (snaps i).sThumbLX) cfg.deadzone = 0) (n : Nat) :
    ∃ q : α, 0 ≤ q ∧ q ≤ 1 - 0.15 * cfg.centerSpring ∧
      (stateAfter powf cfg snaps st (n + 1)).steer =
        (stateAfter powf cfg snaps st n).steer * q := by
  have hin := stateAfter_steer_abs_le powf cfg snaps st hp n
  obtain ⟨hk0, hk1⟩ := centerGain_bounds (stateAfter powf cfg snaps st n).steer
  refine ⟨1 - cfg.centerSpring * clamp (|(stateAfter powf cfg snaps st n).steer| * 2.5) 0.15 1.0,
    by nlinarith, by nlinarith, ?_⟩
  have h1 : (stateAfter powf cfg snaps st (n + 1)).steer =
      steerStep powf cfg 0 (snaps n).wButtons (stateAfter powf cfg snaps st n).steer := by
    simp only [stateAfter, tick, hz n]
  rw [h1]
  exact steerStep_center powf cfg _ _ hc0 hc1 hin

/-- The tracking branch, for a coefficient in `[0,1]`, a target and a position
within the travel limit: one smoothing step toward the target, left unchanged
by the clamp. -/
theorem steerStep_track (powf : α → α → α) (cfg : Config α) (raw : α) (w : Nat) (p : α)
    (hraw : raw ≠ 0)
    (ha0 : 0 ≤ alphaWheelCurrent cfg.alphaWheelBase w)
    (ha1 : alphaWheelCurrent cfg.alphaWheelBase w ≤ 1)
    (ht : |apply_gamma powf raw cfg.gamma * cfg.angleLimit| ≤ cfg.angleLimit)
    (hp : |p| ≤ cfg.angleLimit) :
    steerStep powf cfg raw w p =
      p + (apply_gamma powf raw cfg.gamma * cfg.angleLimit - p) *
        alphaWheelCurrent cfg.alphaWheelBase w := by
  obtain ⟨ht0, ht1⟩ := abs_le.mp ht
  obtain ⟨hp0, hp1⟩ := abs_le.mp hp
  unfold steerStep
  simp only [if_neg hraw]
  apply clamp_eq_self
  · nlinarith
  · nlinarith

theorem clamp_mono {v w a b : α} (h : v ≤ w) (hab : a ≤ b) : clamp v a b ≤ clamp w a b := by
  unfold clamp
  split_ifs <;> linarith

theorem clamp_of_le_left {v a b : α} (h : v ≤ a) (_hab : a ≤ b) : clamp v a b = a := by
  unfold clamp
  split_ifs <;> linarith

theorem clamp_of_ge_right {v a b : α} (h : b ≤ v) (hab : a ≤ b) : clamp v a b = b := by
  unfold clamp
  split_ifs <;> linarith

/-- The encoder is the floor of `(clamp(v,-1,1) + 1) * 16383.5`, a value in
`[0, 32767]`, so the truncation is a floor. -/
theorem normAxis_eq_floor [FloorRing α] (v : α) :
    normAxis v = ⌊(clamp v (-1) 1 + 1) * 16383.5⌋ ∧
      0 ≤ (clamp v (-1) 1 + 1) * 16383.5 ∧ (clamp v (-1) 1 + 1) * 16383.5 ≤ (32767 : α) := by
  have hab : (-1 : α) ≤ 1 := by norm_num
  have h0 := clamp_ge v hab
  have h1 := clamp_le v hab
  have hx0 : 0 ≤ (clamp v (-1) 1 + 1) * 16383.5 := mul_nonneg (by linarith) (by norm_num)
  refine ⟨?_, hx0, ?_⟩
  · unfold normAxis toLONG
    simp only [if_pos hx0]
  · have : (clamp v (-1) 1 + 1) * 16383.5 ≤ (1 + 1) * (16383.5 : α) :=
      mul_le_mul_of_nonneg_right (by linarith) (by norm_num)
    linarith

/-- The clamp returns the point of `[a, b]` nearest to its argument. -/
theorem clamp_nearest (v : α) {a b y : α} (hy0 : a ≤ y) (hy1 : y ≤ b) :
    |clamp v a b - v| ≤ |y - v| := by
  unfold clamp
  split_ifs with h1 h2
  · rw [abs_of_nonneg (by linarith), abs_of_nonneg (by linarith)]
    linarith
  · rw [abs_of_nonpos (by linarith), abs_of_nonpos (by linarith)]
    linarith
  · rw [sub_self, abs_zero]
    exact abs_nonneg _

end Lemmas

/-! ## Facts over the reals: the response curve and the tracking branch -/

/-- On a non-negative value the response curve is the real power. -/
theorem apply_gamma_of_nonneg (r gamma : ℝ) (hr : 0 ≤ r) :
    apply_gamma Real.rpow r gamma = r ^ gamma := by
  unfold apply_gamma
  simp only [ge_iff_le, if_pos hr, abs_of_nonneg hr, Real.rpow_eq_pow, one_mul]

/-- A centred wheel with zero effective input stays centred. -/
theorem steerStep_zero_zero (powf : ℝ → ℝ → ℝ) (cfg : Config ℝ) (w : Nat)
    (hL : 0 ≤ cfg.angleLimit) : steerStep powf cfg 0 w 0 = 0 := by
  unfold steerStep
  simp only [if_true, sub_zero, zero_mul, add_zero]
  exact clamp_eq_self (by linarith) hL

/-- The real power `(22/47) ^ 1.3` lies strictly between `0.3727` and `0.3728`. -/
theorem rpow_scenario_bounds :
    (0.3727 : ℝ) < (22 / 47 : ℝ) ^ (1.3 : ℝ) ∧ (22 / 47 : ℝ) ^ (1.3 : ℝ) < 0.3728 := by
  have hy0 : (0 : ℝ) ≤ (22 / 47 : ℝ) ^ (1.3 : ℝ) := Real.rpow_nonneg (by norm_num) _
  have hy : ((22 / 47 : ℝ) ^ (1.3 : ℝ)) ^ (10 : Nat) = (22 / 47 : ℝ) ^ (13 : Nat) := by
    rw [← Real.rpow_natCast, ← Real.rpow_mul (by norm_num), ← Real.rpow_natCast]
    norm_num
  constructor
  · by_contra hle
    have h := pow_le_pow_left₀ hy0 (not_lt.mp hle) 10
    rw [hy] at h
    norm_num at h
  · by_contra hle
    have h := pow_le_pow_left₀ (by norm_num : (0 : ℝ) ≤ 0.3728) (not_lt.mp hle) 10
    rw [hy] at h
    norm_num at h

/-- The spec scenario on the code: default configuration, centred wheel, one
tick with `sThumbLX = 16384` and no button. The normalised value is `22/47`,
the target is `(22/47)^1.3 * 0.6` and the new position is `target * 0.04`. -/
theorem scenario_values :
    apply_gamma Real.rpow
        (deadzoneStage (rawStick 16384)
          (loadConfig none none none none 540 none : Config ℝ).deadzone)
        (loadConfig none none none none 540 none : Config ℝ).gamma *
        (loadConfig none none none none 540 none : Config ℝ).angleLimit =
      (22 / 47 : ℝ) ^ (1.3 : ℝ) * 0.6 ∧
    (tick Real.rpow (loadConfig none none none none 540 none) ⟨0, 0, 0, 16384⟩
        initState).steer = (22 / 47 : ℝ) ^ (1.3 : ℝ) * 0.6 * 0.04 := by
  have hy0 : (0 : ℝ) ≤ (22 / 47 : ℝ) ^ (1.3 : ℝ) := Real.rpow_nonneg (by norm_num) _
  have hhi : (22 / 47 : ℝ) ^ (1.3 : ℝ) ≤ 1 :=
    Real.rpow_le_one (by norm_num) (by norm_num) (by norm_num)
  have hraw : (rawStick 16384 : ℝ) = 1 / 2 := by norm_num [rawStick]
  have habs : |(1 / 2 : ℝ)| = 1 / 2 := abs_of_pos (by norm_num)
  have hdz : deadzoneStage (rawStick 16384 : ℝ)
      (loadConfig none none none none 540 none : Config ℝ).deadzone = 22 / 47 := by
    rw [hraw]
    norm_num [loadConfig, iniFloat, deadzoneStage, habs]
  have hL : (loadConfig none none none none 540 none : Config ℝ).angleLimit = 0.6 := by
    norm_num [loadConfig, angleLimitOf, clamp]
  have hgam : (loadConfig none none none none 540 none : Config ℝ).gamma = 1.3 := by
    simp [loadConfig, iniFloat]
  have ha : alphaWheelCurrent
      (loadConfig none none none none 540 none : Config ℝ).alphaWheelBase 0 = 0.04 := by
    simp [loadConfig, iniFloat, alphaWheelCurrent]
  have ht : apply_gamma Real.rpow (22 / 47)
        (loadConfig none none none none 540 none : Config ℝ).gamma *
        (loadConfig none none none none 540 none : Config ℝ).angleLimit =
      (22 / 47 : ℝ) ^ (1.3 : ℝ) * 0.6 := by
    rw [apply_gamma_of_nonneg _ _ (by norm_num), hL, hgam]
  refine ⟨by rw [hdz, ht], ?_⟩
  have hstep : (tick Real.rpow (loadConfig none none none none 540 none) ⟨0, 0, 0, 16384⟩
      initState).steer =
      steerStep Real.rpow (loadConfig none none none none 540 none) (22 / 47) 0 0 := by
    simp only [tick, hdz, initState]
  rw [hstep, steerStep_track Real.rpow _ (22 / 47) 0 0 (by norm_num)
    (by rw [ha]; norm_num) (by rw [ha]; norm_num)
    (by rw [ht, hL, abs_of_nonneg (by linarith)]; linarith)
    (by rw [hL, abs_zero]; norm_num), ht, ha]
  ring

/-! ## Facts about one pass: emission, neutral snapshot, target bound -/

/-- The axis values one pass emits: one per axis, the encoded updated position. -/
theorem tickCalls_axes (powf : ℝ → ℝ → ℝ) (cfg : Config ℝ) (s : Gamepad) (st : State ℝ) :
    axisValues (tickCalls powf cfg s st) HID_X = [normAxis (tick powf cfg s st).steer] ∧
      axisValues (tickCalls powf cfg s st) HID_Y = [normAxis (tick powf cfg s st).gas] ∧
      axisValues (tickCalls powf cfg s st) HID_Z = [normAxis (tick powf cfg s st).brake] := by
  simp only [tickCalls, axisValues_append, axisValues_buttons, List.append_nil]
  simp [axisValues, HID_X, HID_Y, HID_Z]

/-- The button values one pass emits: button `n` once for `1 ≤ n ≤ 16`, with
the state of bit `n - 1` of the mask, no other button. -/
theorem tickCalls_buttons (powf : ℝ → ℝ → ℝ) (cfg : Config ℝ) (s : Gamepad) (st : State ℝ)
    (n : Nat) :
    btnValues (tickCalls powf cfg s st) n =
      if 1 ≤ n ∧ n ≤ 16 then [s.wButtons.testBit (n - 1)] else [] := by
  have haxes : ∀ a b c : Int, btnValues [Call.SetAxis a VJOY_ID HID_X,
      Call.SetAxis b VJOY_ID HID_Y, Call.SetAxis c VJOY_ID HID_Z] n = [] := by
    intro a b c
    simp [btnValues]
  simp only [tickCalls, btnValues_append, haxes, List.nil_append]
  rw [btnValues_buttons (fun i => (s.wButtons &&& (1 <<< i)) != 0) 16 n]
  simp only [mask_test_eq_testBit]

/-- A centred stick reading is normalised to `0` for every deadzone `≥ 0`. -/
theorem deadzoneStage_zero (deadzone : ℝ) (h0 : 0 ≤ deadzone) :
    deadzoneStage (rawStick zeroGamepad.sThumbLX : ℝ) deadzone = 0 := by
  have hraw : (rawStick zeroGamepad.sThumbLX : ℝ) = 0 := by simp [rawStick, zeroGamepad]
  rw [hraw]
  unfold deadzoneStage
  rw [abs_zero]
  split_ifs with h1 h2
  · rfl
  · exact absurd h2 (lt_irrefl 0)
  · have hdz : deadzone = 0 := le_antisymm (not_lt.mp h1) h0
    rw [hdz]
    norm_num

/-- The pedal update with a released trigger: one smoothing step toward `-1`,
then the clamp. -/
theorem pedalStep_released (alphaPedal p : ℝ) :
    pedalStep alphaPedal 0 p = clamp (p + (-1 - p) * alphaPedal) (-1) 1 := by
  have hr : ((0 : Nat) : ℝ) / 255 * 2 - 1 = -1 := by norm_num
  unfold pedalStep
  simp only [hr]

/-- The rest state is kept by a pass with the neutral snapshot. -/
theorem tick_rest (powf : ℝ → ℝ → ℝ) (cfg : Config ℝ) (hd : 0 ≤ cfg.deadzone)
    (hL : 0 ≤ cfg.angleLimit) : tick powf cfg zeroGamepad initState = initState := by
  have hp : pedalStep cfg.alphaPedal 0 (-1) = -1 := by
    rw [pedalStep_released]
    have : (-1 : ℝ) + (-1 - -1) * cfg.alphaPedal = -1 := by ring
    rw [this]
    exact clamp_eq_self (le_refl _) (by norm_num)
  have hs : steerStep powf cfg 0 0 0 = 0 := steerStep_zero_zero powf cfg 0 hL
  simp only [tick, deadzoneStage_zero cfg.deadzone hd]
  simp only [zeroGamepad, initState, hp, hs]

/-- The response curve maps `[-1,1]` into `[-1,1]` for an exponent `≥ 0`. -/
theorem apply_gamma_abs_le_one (r gamma : ℝ) (hr : |r| ≤ 1) (hg : 0 ≤ gamma) :
    |apply_gamma Real.rpow r gamma| ≤ 1 := by
  have hpow0 : 0 ≤ |r| ^ gamma := Real.rpow_nonneg (abs_nonneg r) _
  have hpow1 : |r| ^ gamma ≤ 1 := Real.rpow_le_one (abs_nonneg r) hr hg
  unfold apply_gamma
  simp only [Real.rpow_eq_pow, ge_iff_le]
  split_ifs
  · rw [one_mul, abs_of_nonneg hpow0]
    exact hpow1
  · rw [neg_one_mul, abs_neg, abs_of_nonneg hpow0]
    exact hpow1

/-- The deadzone stage maps `[-1,1]` into `[-1,1]` for a deadzone below `1`. -/
theorem deadzoneStage_abs_le_one (raw deadzone : ℝ) (hraw : |raw| ≤ 1)
    (h1 : deadzone < 1) : |deadzoneStage raw deadzone| ≤ 1 := by
  have hd : 0 < 1 - deadzone := by linarith
  unfold deadzoneStage
  split_ifs with hlt hpos
  · rw [abs_zero]; exact zero_le_one
  · rw [mul_one, abs_of_nonneg (div_nonneg (by linarith [not_lt.mp hlt]) hd.le)]
    exact (div_le_one hd).mpr (by linarith)
  · rw [mul_neg_one, abs_neg, abs_of_nonneg (div_nonneg (by linarith [not_lt.mp hlt]) hd.le)]
    exact (div_le_one hd).mpr (by linarith)

/-- Every `SHORT` stick reading is normalised into `[-1, 1]`. -/
theorem rawStick_abs_le_one (x : Int) (h0 : -32768 ≤ x) (h1 : x ≤ 32767) :
    |(rawStick x : ℝ)| ≤ 1 := by
  have hx0 : (-32768 : ℝ) ≤ (x : ℝ) := by exact_mod_cast h0
  have hx1 : (x : ℝ) ≤ 32767 := by exact_mod_cast h1
  unfold rawStick
  rw [abs_le]
  constructor
  · rw [le_div_iff₀ (by norm_num)]
    linarith
  · rw [div_le_iff₀ (by norm_num)]
    linarith

/-- A normalised value in `[-1,1]` gives a target within a travel limit `≥ 0`. -/
theorem target_abs_le (r gamma limit : ℝ) (hr : |r| ≤ 1) (hg : 0 ≤ gamma) (hL : 0 ≤ limit) :
    |apply_gamma Real.rpow r gamma * limit| ≤ limit := by
  rw [abs_mul, abs_of_nonneg hL]
  have h := apply_gamma_abs_le_one r gamma hr hg
  nlinarith

theorem normAxis_zero : normAxis (0 : ℝ) = 16383 := by
  norm_num [normAxis, clamp, toLONG, Int.floor_eq_iff]

theorem normAxis_neg_one : normAxis (-1 : ℝ) = 0 := by
  norm_num [normAxis, clamp, toLONG]

/-! ## Facts about binary32 rounding -/

namespace F32

theorem two_zpow_pos (k : ℤ) : (0 : ℚ) < 2 ^ k := zpow_pos (by norm_num) k

theorem two_zpow_strictMono : StrictMono fun z : ℤ => (2 : ℚ) ^ z :=
  zpow_right_strictMono₀ (by norm_num)

/-- The nearest integer, when it is strictly nearer than any other. -/
theorem rne_of_near (x : ℚ) (n : ℤ) (h1 : (n : ℚ) - 1 / 2 < x) (h2 : x < n + 1 / 2) :
    rne x = n := by
  unfold rne
  by_cases hx : (n : ℚ) ≤ x
  · have hf : ⌊x⌋ = n := Int.floor_eq_iff.mpr ⟨hx, by linarith⟩
    rw [hf, if_pos (by linarith)]
  · have hx2 : x < n := not_le.mp hx
    have hf : ⌊x⌋ = n - 1 :=
      Int.floor_eq_iff.mpr ⟨by push_cast; linarith, by push_cast; linarith⟩
    rw [hf]
    have h3 : ¬ (x - ((n - 1 : ℤ) : ℚ) < 1 / 2) := by push_cast; linarith
    have h4 : 1 / 2 < x - ((n - 1 : ℤ) : ℚ) := by push_cast; linarith
    rw [if_neg h3, if_pos h4]
    ring

/-- A tie goes to the even neighbour. -/
theorem rne_of_tie (x : ℚ) (n : ℤ) (hx : x = n + 1 / 2) :
    rne x = if n % 2 = 0 then n else n + 1 := by
  have hf : ⌊x⌋ = n := Int.floor_eq_iff.mpr ⟨by linarith, by linarith⟩
  have h3 : ¬ (x - (n : ℚ) < 1 / 2) := by linarith
  have h4 : ¬ (1 / 2 < x - (n : ℚ)) := by linarith
  unfold rne
  rw [hf, if_neg h3, if_neg h4]

theorem rne_intCast (n : ℤ) : rne (n : ℚ) = n :=
  rne_of_near _ _ (by linarith) (by linarith)

/-- The binary exponent of a positive rational. -/
theorem log_eq (x : ℚ) (e : ℤ) (h1 : (2 : ℚ) ^ e ≤ x) (h2 : x < 2 ^ (e + 1)) :
    Int.log 2 x = e := by
  have hx : 0 < x := lt_of_lt_of_le (two_zpow_pos e) h1
  have ha : (2 : ℚ) ^ Int.log 2 x ≤ x := by
    have := @Int.zpow_log_le_self ℚ _ _ 2 x (by norm_num) hx
    exact_mod_cast this
  have hb : x < (2 : ℚ) ^ (Int.log 2 x + 1) := by
    have := @Int.lt_zpow_succ_log_self ℚ _ _ 2 (by norm_num) x
    exact_mod_cast this
  apply le_antisymm
  · have h := two_zpow_strictMono.lt_iff_lt.mp (lt_of_le_of_lt ha h2)
    omega
  · have h := two_zpow_strictMono.lt_iff_lt.mp (lt_of_le_of_lt h1 hb)
    omega

theorem roundMag_zero : roundMag 0 = 0 := by
  unfold roundMag
  rw [zero_div]
  have h : rne (0 : ℚ) = 0 := by
    have := rne_intCast 0
    simpa using this
  rw [h]
  simp

theorem roundQ_zero : roundQ 0 = 0 := by
  unfold roundQ
  rw [if_neg (lt_irrefl 0), roundMag_zero]

theorem roundQ_neg (x : ℚ) : roundQ (-x) = -roundQ x := by
  unfold roundQ
  rcases lt_trichotomy x 0 with h | h | h
  · rw [if_neg (by linarith), if_pos h, neg_neg]
  · subst h
    simp [roundMag_zero]
  · rw [if_pos (by linarith), if_neg (by linarith), neg_neg]

theorem rnd_zero : rnd 0 = fin 0 := by
  have h1 : ¬ ((2 : ℚ) ^ 128 ≤ 0) := not_le.mpr (pow_pos (by norm_num) 128)
  have h2 : ¬ ((0 : ℚ) ≤ -2 ^ 128) := by
    have := pow_pos (show (0 : ℚ) < 2 by norm_num) 128
    linarith
  unfold rnd
  rw [roundQ_zero, if_neg h1, if_neg h2]

/-- Rounding commutes with the change of sign. -/
theorem rnd_neg (x : ℚ) : rnd (-x) = neg (rnd x) := by
  have hpos := pow_pos (show (0 : ℚ) < 2 by norm_num) 128
  unfold rnd
  rw [roundQ_neg]
  by_cases h1 : (2 : ℚ) ^ 128 ≤ roundQ x
  · have h3 : ¬ ((2 : ℚ) ^ 128 ≤ -roundQ x) := by linarith
    have h4 : -roundQ x ≤ -2 ^ 128 := by linarith
    rw [if_pos h1, if_neg h3, if_pos h4]
    rfl
  · by_cases h2 : roundQ x ≤ -2 ^ 128
    · have h3 : (2 : ℚ) ^ 128 ≤ -roundQ x := by linarith
      rw [if_neg h1, if_pos h2, if_pos h3]
      rfl
    · have h3 : ¬ ((2 : ℚ) ^ 128 ≤ -roundQ x) := by linarith
      have h4 : ¬ (-roundQ x ≤ -2 ^ 128) := by linarith
      rw [if_neg h1, if_neg h2, if_neg h3, if_neg h4]
      rfl

/-- Evaluation of the rounding of a positive rational: `e` is its binary
exponent, `k` the exponent of its unit in the last place and `n` the integer
that `x / 2^k` rounds to. -/
theorem roundQ_eval (x : ℚ) (e k n : ℤ) (h1 : (2 : ℚ) ^ e ≤ x) (h2 : x < 2 ^ (e + 1))
    (hk : k = max e (-126) - 23) (hn : rne (x / 2 ^ k) = n) : roundQ x = n * 2 ^ k := by
  have hx : 0 < x := lt_of_lt_of_le (two_zpow_pos e) h1
  have hu : ulpExp x = k := by rw [ulpExp, log_eq x e h1 h2, hk]
  rw [roundQ, if_neg (not_lt.mpr hx.le), roundMag, hu, hn]

/-- A rounded value of moderate size is finite. -/
theorem rnd_of_roundQ (x r : ℚ) (hr : roundQ x = r) (h1 : -2 ^ 32 ≤ r) (h2 : r ≤ 2 ^ 32) :
    rnd x = fin r := by
  have hbig : (2 : ℚ) ^ 32 < 2 ^ 128 := pow_lt_pow_right₀ (by norm_num) (by norm_num)
  unfold rnd
  rw [hr, if_neg (by linarith), if_neg (by linarith)]

/-- Evaluation of `rnd` away from a tie. -/
theorem rnd_eval (x : ℚ) (e k n : ℤ) (h1 : (2 : ℚ) ^ e ≤ x) (h2 : x < 2 ^ (e + 1))
    (hk : k = max e (-126) - 23)
    (hn1 : ((n : ℚ) - 1 / 2) * 2 ^ k < x) (hn2 : x < (n + 1 / 2) * 2 ^ k)
    (hb : (n : ℚ) * 2 ^ k ≤ 2 ^ 32) : rnd x = fin (n * 2 ^ k) := by
  have hx : 0 < x := lt_of_lt_of_le (two_zpow_pos e) h1
  have hpk := two_zpow_pos k
  have hr : rne (x / 2 ^ k) = n :=
    rne_of_near _ _ (by rw [lt_div_iff₀ hpk]; exact hn1) (by rw [div_lt_iff₀ hpk]; exact hn2)
  have hn0 : (-1 : ℚ) < n := by
    by_contra hneg
    have : (n : ℚ) + 1 / 2 ≤ 0 := by linarith [not_lt.mp hneg]
    have := mul_nonpos_of_nonpos_of_nonneg this hpk.le
    linarith
  have hn0' : (0 : ℚ) ≤ n := by
    have h : (-1 : ℤ) < n := by exact_mod_cast hn0
    have h' : (0 : ℤ) ≤ n := by omega
    exact_mod_cast h'
  apply rnd_of_roundQ x _ (roundQ_eval x e k n h1 h2 hk hr) _ hb
  have := mul_nonneg hn0' hpk.le
  have h32 := pow_pos (show (0 : ℚ) < 2 by norm_num) 32
  linarith

/-- Evaluation of `rnd` at a tie below an even neighbour `n + 1`. -/
theorem rnd_eval_tie_up (x : ℚ) (e k n : ℤ) (h1 : (2 : ℚ) ^ e ≤ x) (h2 : x < 2 ^ (e + 1))
    (hk : k = max e (-126) - 23) (hx : x = (n + 1 / 2) * 2 ^ k) (hodd : n % 2 = 1)
    (h0 : 0 ≤ n) (hb : ((n + 1 : ℤ) : ℚ) * 2 ^ k ≤ 2 ^ 32) :
    rnd x = fin ((n + 1 : ℤ) * 2 ^ k) := by
  have hpk := two_zpow_pos k
  have hr : rne (x / 2 ^ k) = n + 1 := by
    rw [rne_of_tie (x / 2 ^ k) n (by rw [hx, mul_div_assoc, div_self hpk.ne', mul_one]),
      if_neg (by omega)]
  apply rnd_of_roundQ x _ (roundQ_eval x e k (n + 1) h1 h2 hk hr) _ hb
  have hn1 : (0 : ℚ) ≤ ((n + 1 : ℤ) : ℚ) := by
    have h : (0 : ℤ) ≤ n + 1 := by omega
    exact_mod_cast h
  have := mul_nonneg hn1 hpk.le
  have h32 := pow_pos (show (0 : ℚ) < 2 by norm_num) 32
  linarith

/-- A positive multiple `n * 2^k` of a power of two with `n < 2^24` and
`k ≥ -149` is a binary32 number: rounding leaves it unchanged. -/
theorem roundQ_dyadic (n k : ℤ) (hn0 : 0 < n) (hn : n < 2 ^ 24) (hk : -149 ≤ k) :
    roundQ (n * 2 ^ k) = n * 2 ^ k := by
  have hpk := two_zpow_pos k
  have hnq : (0 : ℚ) < n := by exact_mod_cast hn0
  have hx : (0 : ℚ) < n * 2 ^ k := mul_pos hnq hpk
  have ha : (2 : ℚ) ^ Int.log 2 ((n : ℚ) * 2 ^ k) ≤ n * 2 ^ k := by
    have := @Int.zpow_log_le_self ℚ _ _ 2 ((n : ℚ) * 2 ^ k) (by norm_num) hx
    exact_mod_cast this
  have hb : (n : ℚ) * 2 ^ k < (2 : ℚ) ^ (Int.log 2 ((n : ℚ) * 2 ^ k) + 1) := by
    have := @Int.lt_zpow_succ_log_self ℚ _ _ 2 (by norm_num) ((n : ℚ) * 2 ^ k)
    exact_mod_cast this
  have hlt : (n : ℚ) * 2 ^ k < 2 ^ (k + 24) := by
    have h24 : (n : ℚ) < 2 ^ (24 : ℕ) := by exact_mod_cast hn
    rw [zpow_add₀ (by norm_num : (2 : ℚ) ≠ 0), mul_comm ((2 : ℚ) ^ k)]
    have : ((2 : ℚ) ^ (24 : ℤ)) = 2 ^ (24 : ℕ) := by norm_num
    rw [this]
    exact mul_lt_mul_of_pos_right h24 hpk
  have he : Int.log 2 ((n : ℚ) * 2 ^ k) < k + 24 :=
    two_zpow_strictMono.lt_iff_lt.mp (lt_of_le_of_lt ha hlt)
  have hu : max (Int.log 2 ((n : ℚ) * 2 ^ k)) (-126) - 23 ≤ k := by
    rcases le_total (Int.log 2 ((n : ℚ) * 2 ^ k)) (-126) with h | h
    · rw [max_eq_right h]; omega
    · rw [max_eq_left h]; omega
  obtain ⟨d, hd⟩ : ∃ d : ℕ, k = (max (Int.log 2 ((n : ℚ) * 2 ^ k)) (-126) - 23) + d :=
    ⟨(k - (max (Int.log 2 ((n : ℚ) * 2 ^ k)) (-126) - 23)).toNat, by omega⟩
  have hquot : (n : ℚ) * 2 ^ k / 2 ^ (max (Int.log 2 ((n : ℚ) * 2 ^ k)) (-126) - 23) =
      ((n * 2 ^ d : ℤ) : ℚ) := by
    have hpu := two_zpow_pos (max (Int.log 2 ((n : ℚ) * 2 ^ k)) (-126) - 23)
    rw [div_eq_iff hpu.ne']
    nth_rewrite 1 [hd]
    rw [zpow_add₀ (by norm_num : (2 : ℚ) ≠ 0)]
    push_cast
    rw [zpow_natCast]
    ring
  have hr := roundQ_eval ((n : ℚ) * 2 ^ k) (Int.log 2 ((n : ℚ) * 2 ^ k))
    (max (Int.log 2 ((n : ℚ) * 2 ^ k)) (-126) - 23) (n * 2 ^ d) ha hb rfl
    (by rw [hquot]; exact rne_intCast _)
  rw [hr, ← hquot]
  exact div_mul_cancel₀ _ (two_zpow_pos _).ne'

/-- Rounding leaves the binary32 number `x = n * 2^k` unchanged (`|n| < 2^24`,
`-149 ≤ k ≤ 8`). -/
theorem rnd_exact (x : ℚ) (n k : ℤ) (hx : x = n * 2 ^ k) (hn1 : -2 ^ 24 < n) (hn2 : n < 2 ^ 24)
    (hk : -149 ≤ k) (hk2 : k ≤ 8) : rnd x = fin x := by
  have hpk := two_zpow_pos k
  have hk8 : (2 : ℚ) ^ k ≤ 2 ^ (8 : ℤ) := two_zpow_strictMono.monotone hk2
  have h8 : (2 : ℚ) ^ (8 : ℤ) = 256 := by norm_num
  have habs : ∀ m : ℤ, 0 < m → m < 2 ^ 24 → (m : ℚ) * 2 ^ k ≤ 2 ^ 32 := by
    intro m hm0 hm
    have h1 : (m : ℚ) ≤ 2 ^ (24 : ℕ) := by exact_mod_cast hm.le
    have h2 : (0 : ℚ) ≤ m := by exact_mod_cast hm0.le
    calc (m : ℚ) * 2 ^ k ≤ 2 ^ (24 : ℕ) * 256 :=
          mul_le_mul h1 (by rw [← h8]; exact hk8) hpk.le (by positivity)
      _ = 2 ^ 32 := by norm_num
  have h32 := pow_pos (show (0 : ℚ) < 2 by norm_num) 32
  rcases lt_trichotomy n 0 with hneg | hzero | hpos
  · have hx2 : x = -(((-n : ℤ) : ℚ) * 2 ^ k) := by rw [hx]; push_cast; ring
    have hr := roundQ_dyadic (-n) k (by omega) (by omega) hk
    have hb := habs (-n) (by omega) (by omega)
    have hm0 : (0 : ℚ) ≤ ((-n : ℤ) : ℚ) * 2 ^ k :=
      mul_nonneg (by exact_mod_cast (show (0 : ℤ) ≤ -n by omega)) hpk.le
    rw [hx2, rnd_neg, rnd_of_roundQ _ _ hr (by linarith) hb]
    rfl
  · rw [hx, hzero]
    simp [rnd_zero]
  · have hr := roundQ_dyadic n k hpos hn2 hk
    have hb := habs n hpos hn2
    have hm0 : (0 : ℚ) ≤ (n : ℚ) * 2 ^ k :=
      mul_nonneg (by exact_mod_cast hpos.le) hpk.le
    rw [hx]
    exact rnd_of_roundQ _ _ hr (by linarith) hb

/-- The rounded integer is within one half of its argument. -/
theorem rne_near (x : ℚ) : x - 1 / 2 ≤ rne x ∧ (rne x : ℚ) ≤ x + 1 / 2 := by
  have h1 := Int.floor_le x
  have h2 := Int.lt_floor_add_one x
  unfold rne
  split_ifs with ha hb hc
  · constructor <;> linarith
  · push_cast
    constructor <;> linarith
  · constructor <;> linarith
  · push_cast
    constructor <;> linarith

/-- Rounding to the nearest integer is monotone. -/
theorem rne_mono {x y : ℚ} (h : x ≤ y) : rne x ≤ rne y := by
  rcases eq_or_lt_of_le h with heq | hlt
  · rw [heq]
  · by_contra hcon
    have h1 : rne y + 1 ≤ rne x := by omega
    have h2 : ((rne y : ℤ) : ℚ) + 1 ≤ rne x := by exact_mod_cast h1
    have hx := (rne_near x).2
    have hy := (rne_near y).1
    linarith

theorem roundMag_nonneg {x : ℚ} (hx : 0 ≤ x) : 0 ≤ roundMag x := by
  unfold roundMag
  have hu := two_zpow_pos (ulpExp x)
  have h0 : rne (0 : ℚ) = 0 := by simpa using rne_intCast 0
  have h : (0 : ℤ) ≤ rne (x / 2 ^ ulpExp x) := by
    rw [← h0]
    exact rne_mono (div_nonneg hx hu.le)
  exact mul_nonneg (by exact_mod_cast h) hu.le

/-- Rounding of magnitudes is monotone: within a binade by the monotonicity of
the integer rounding, across binades because a rounded value stays within the
closed binade of its argument. -/
theorem roundMag_mono {x y : ℚ} (hx : 0 < x) (h : x ≤ y) : roundMag x ≤ roundMag y := by
  have hy : 0 < y := lt_of_lt_of_le hx h
  have hlog : Int.log 2 x ≤ Int.log 2 y := Int.log_mono_right hx h
  have hE : max (Int.log 2 x) (-126) ≤ max (Int.log 2 y) (-126) := max_le_max hlog le_rfl
  rcases eq_or_lt_of_le hE with heq | hlt
  · have hu : ulpExp x = ulpExp y := by unfold ulpExp; rw [heq]
    unfold roundMag
    rw [hu]
    have hpu := two_zpow_pos (ulpExp y)
    have hr : rne (x / 2 ^ ulpExp y) ≤ rne (y / 2 ^ ulpExp y) :=
      rne_mono (div_le_div_of_nonneg_right h hpu.le)
    exact mul_le_mul_of_nonneg_right (by exact_mod_cast hr) hpu.le
  · -- different binades
    have hxb : x < (2 : ℚ) ^ (Int.log 2 x + 1) := by
      have := @Int.lt_zpow_succ_log_self ℚ _ _ 2 (by norm_num) x
      exact_mod_cast this
    have hyb : (2 : ℚ) ^ Int.log 2 y ≤ y := by
      have := @Int.zpow_log_le_self ℚ _ _ 2 y (by norm_num) hy
      exact_mod_cast this
    have hEy : max (Int.log 2 y) (-126) = Int.log 2 y := by
      apply max_eq_left
      by_contra hcon
      have : max (Int.log 2 y) (-126) = -126 := max_eq_right (by omega)
      have h2 : -126 ≤ max (Int.log 2 x) (-126) := le_max_right _ _
      omega
    -- upper bound for the rounding of x
    have hux : roundMag x ≤ 2 ^ (max (Int.log 2 x) (-126) + 1) := by
      unfold roundMag ulpExp
      have hpu := two_zpow_pos (max (Int.log 2 x) (-126) - 23)
      have hq : x / 2 ^ (max (Int.log 2 x) (-126) - 23) ≤ ((2 ^ 24 : ℤ) : ℚ) := by
        rw [div_le_iff₀ hpu]
        have h1 : x ≤ (2 : ℚ) ^ (max (Int.log 2 x) (-126) + 1) :=
          le_trans hxb.le (two_zpow_strictMono.monotone (by
            have := le_max_left (Int.log 2 x) (-126)
            omega))
        have h2 : ((2 ^ 24 : ℤ) : ℚ) * 2 ^ (max (Int.log 2 x) (-126) - 23) =
            2 ^ (max (Int.log 2 x) (-126) + 1) := by
          have : ((2 ^ 24 : ℤ) : ℚ) = (2 : ℚ) ^ (24 : ℤ) := by norm_num
          rw [this, ← zpow_add₀ (by norm_num : (2 : ℚ) ≠ 0)]
          congr 1
          ring
        rw [h2]
        exact h1
      have hr : rne (x / 2 ^ (max (Int.log 2 x) (-126) - 23)) ≤ 2 ^ 24 := by
        have := rne_mono hq
        rwa [rne_intCast] at this
      have hr2 : ((rne (x / 2 ^ (max (Int.log 2 x) (-126) - 23)) : ℤ) : ℚ) ≤
          (2 : ℚ) ^ (24 : ℤ) := by
        have : ((2 ^ 24 : ℤ) : ℚ) = (2 : ℚ) ^ (24 : ℤ) := by norm_num
        rw [← this]
        exact_mod_cast hr
      calc ((rne (x / 2 ^ (max (Int.log 2 x) (-126) - 23)) : ℤ) : ℚ) *
            2 ^ (max (Int.log 2 x) (-126) - 23)
          ≤ (2 : ℚ) ^ (24 : ℤ) * 2 ^ (max (Int.log 2 x) (-126) - 23) :=
            mul_le_mul_of_nonneg_right hr2 hpu.le
        _ = 2 ^ (max (Int.log 2 x) (-126) + 1) := by
            rw [← zpow_add₀ (by norm_num : (2 : ℚ) ≠ 0)]
            congr 1
            ring
    -- lower bound for the rounding of y
    have hly : (2 : ℚ) ^ Int.log 2 y ≤ roundMag y := by
      unfold roundMag ulpExp
      rw [hEy]
      have hpu := two_zpow_pos (Int.log 2 y - 23)
      have hq : ((2 ^ 23 : ℤ) : ℚ) ≤ y / 2 ^ (Int.log 2 y - 23) := by
        rw [le_div_iff₀ hpu]
        have h2 : ((2 ^ 23 : ℤ) : ℚ) * 2 ^ (Int.log 2 y - 23) = 2 ^ Int.log 2 y := by
          have : ((2 ^ 23 : ℤ) : ℚ) = (2 : ℚ) ^ (23 : ℤ) := by norm_num
          rw [this, ← zpow_add₀ (by norm_num : (2 : ℚ) ≠ 0)]
          congr 1
          ring
        rw [h2]
        exact hyb
      have hr : 2 ^ 23 ≤ rne (y / 2 ^ (Int.log 2 y - 23)) := by
        have := rne_mono hq
        rwa [rne_intCast] at this
      have hr2 : (2 : ℚ) ^ (23 : ℤ) ≤
          ((rne (y / 2 ^ (Int.log 2 y - 23)) : ℤ) : ℚ) := by
        have : ((2 ^ 23 : ℤ) : ℚ) = (2 : ℚ) ^ (23 : ℤ) := by norm_num
        rw [← this]
        exact_mod_cast hr
      calc (2 : ℚ) ^ Int.log 2 y = (2 : ℚ) ^ (23 : ℤ) * 2 ^ (Int.log 2 y - 23) := by
            rw [← zpow_add₀ (by norm_num : (2 : ℚ) ≠ 0)]
            congr 1
            ring
        _ ≤ _ := mul_le_mul_of_nonneg_right hr2 hpu.le
    have hmid : (2 : ℚ) ^ (max (Int.log 2 x) (-126) + 1) ≤ 2 ^ Int.log 2 y :=
      two_zpow_strictMono.monotone (by omega)
    exact le_trans hux (le_trans hmid hly)

/-- Rounding to the binary32 grid is monotone. -/
theorem roundQ_mono {x y : ℚ} (h : x ≤ y) : roundQ x ≤ roundQ y := by
  unfold roundQ
  by_cases hx : x < 0
  · by_cases hy : y < 0
    · rw [if_pos hx, if_pos hy]
      have := roundMag_mono (by linarith : (0 : ℚ) < -y) (by linarith : -y ≤ -x)
      linarith
    · rw [if_pos hx, if_neg hy]
      have h1 := roundMag_nonneg (by linarith : (0 : ℚ) ≤ -x)
      have h2 := roundMag_nonneg (not_lt.mp hy)
      linarith
  · have hy : ¬ y < 0 := by linarith [not_lt.mp hx]
    rw [if_neg hx, if_neg hy]
    rcases eq_or_lt_of_le (not_lt.mp hx) with h0 | hpos
    · rw [← h0, roundMag_zero]
      exact roundMag_nonneg (not_lt.mp hy)
    · exact roundMag_mono hpos h

theorem rnd_ne_nan (x : ℚ) : rnd x ≠ nan := by
  unfold rnd
  split_ifs <;> simp

/-- A power of two `2^k` with `-149 ≤ k` is on the binary32 grid. -/
theorem roundQ_two_zpow (k : ℤ) (hk : -149 ≤ k) : roundQ (2 ^ k) = 2 ^ k := by
  have := roundQ_dyadic 1 k (by norm_num) (by norm_num) hk
  simpa using this

theorem roundQ_one : roundQ 1 = 1 := by
  have := roundQ_two_zpow 0 (by norm_num)
  simpa using this

/-- Rounding keeps a value between two grid points of moderate size, and the
result is finite. -/
theorem rnd_between (x lo hi : ℚ) (hlo : roundQ lo = lo) (hhi : roundQ hi = hi)
    (h1 : lo ≤ x) (h2 : x ≤ hi) (hb1 : -2 ^ 32 ≤ lo) (hb2 : hi ≤ 2 ^ 32) :
    rnd x = fin (roundQ x) ∧ lo ≤ roundQ x ∧ roundQ x ≤ hi := by
  have ha : lo ≤ roundQ x := by
    have := roundQ_mono h1
    rwa [hlo] at this
  have hb : roundQ x ≤ hi := by
    have := roundQ_mono h2
    rwa [hhi] at this
  exact ⟨rnd_of_roundQ x _ rfl (by linarith) (by linarith), ha, hb⟩

/-- Rounding keeps a magnitude bound that is a power of two `2^k`, `0 ≤ k ≤ 32`. -/
theorem rnd_abs_le (x : ℚ) (k : ℕ) (hk : k ≤ 32) (hx : |x| ≤ 2 ^ k) :
    rnd x = fin (roundQ x) ∧ |roundQ x| ≤ 2 ^ k := by
  have hp : roundQ ((2 : ℚ) ^ k) = 2 ^ k := by
    have := roundQ_two_zpow (k : ℤ) (by omega)
    rwa [zpow_natCast] at this
  have hn : roundQ (-(2 : ℚ) ^ k) = -2 ^ k := by rw [roundQ_neg, hp]
  have hle : (2 : ℚ) ^ k ≤ 2 ^ 32 := pow_le_pow_right₀ (by norm_num) hk
  obtain ⟨h1, h2⟩ := abs_le.mp hx
  obtain ⟨hr, ha, hb⟩ := rnd_between x (-(2 : ℚ) ^ k) (2 ^ k) hn hp h1 h2 (by linarith) hle
  exact ⟨hr, abs_le.mpr ⟨ha, hb⟩⟩

/-- A binary32 number below `1` is at most `1 - 2^-24`. -/
theorem grid_lt_one (d : ℚ) (hd : roundQ d = d) (h1 : d < 1) : d ≤ 1 - 2 ^ (-24 : ℤ) := by
  by_contra hcon
  have hgt : 1 - (2 : ℚ) ^ (-24 : ℤ) < d := not_le.mp hcon
  have h24 : (2 : ℚ) ^ (-24 : ℤ) = 1 / 16777216 := by norm_num
  rw [h24] at hgt
  have he1 : (2 : ℚ) ^ (-1 : ℤ) ≤ d := by
    have : (2 : ℚ) ^ (-1 : ℤ) = 1 / 2 := by norm_num
    rw [this]
    linarith
  have he2 : d < (2 : ℚ) ^ ((-1 : ℤ) + 1) := by
    have : (2 : ℚ) ^ ((-1 : ℤ) + 1) = 1 := by norm_num
    rw [this]
    exact h1
  have hr := roundQ_eval d (-1) (-24) (rne (d / 2 ^ (-24 : ℤ))) he1 he2 (by norm_num) rfl
  rw [hd, h24] at hr
  -- d * 2^24 is an integer below 2^24
  have hm : (rne (d / (1 / 16777216)) : ℚ) < 16777216 := by
    have : (rne (d / (1 / 16777216)) : ℚ) = d * 16777216 := by
      have h := hr
      field_simp at h ⊢
      linarith
    rw [this]
    linarith
  have hm2 : rne (d / (1 / 16777216)) ≤ 16777215 := by
    have : rne (d / (1 / 16777216)) < 16777216 := by exact_mod_cast hm
    omega
  have hm3 : (rne (d / (1 / 16777216)) : ℚ) ≤ 16777215 := by exact_mod_cast hm2
  have : d ≤ 16777215 * (1 / 16777216) := by
    rw [hr]
    exact mul_le_mul_of_nonneg_right hm3 (by norm_num)
  linarith

/-- For a binary32 number `d < 1` the difference `1.f - d` rounds to a
positive value. -/
theorem roundQ_one_sub_pos (d : ℚ) (hd : roundQ d = d) (h1 : d < 1) : 0 < roundQ (1 - d) := by
  have h := grid_lt_one d hd h1
  have hp := roundQ_two_zpow (-24) (by norm_num)
  have hm : roundQ ((2 : ℚ) ^ (-24 : ℤ)) ≤ roundQ (1 - d) := roundQ_mono (by linarith)
  rw [hp] at hm
  exact lt_of_lt_of_le (two_zpow_pos _) hm

theorem add_fin_fin (a b : ℚ) : add (fin a) (fin b) = rnd (a + b) := rfl

theorem sub_fin_fin (a b : ℚ) : sub (fin a) (fin b) = rnd (a - b) := by
  simp only [sub, neg, add, sub_eq_add_neg]

theorem mul_fin_fin (a b : ℚ) : mul (fin a) (fin b) = rnd (a * b) := rfl

theorem div_fin_fin (a b : ℚ) (hb : b ≠ 0) : div (fin a) (fin b) = rnd (a / b) := by
  simp only [div, if_neg hb]

theorem add_nan_right (a : F32) : add a nan = nan := by cases a <;> rfl

theorem mul_nan_right (a : F32) : mul a nan = nan := by cases a <;> rfl

theorem sub_nan_left (a : F32) : sub nan a = nan := by cases a <;> rfl

theorem rnd_one : rnd 1 = fin 1 :=
  rnd_exact 1 1 0 (by norm_num) (by norm_num) (by norm_num) (by norm_num) (by norm_num)

theorem rnd_neg_one : rnd (-1) = fin (-1) :=
  rnd_exact (-1) (-1) 0 (by norm_num) (by norm_num) (by norm_num) (by norm_num) (by norm_num)

end F32

namespace Binary32

open F32

/-- The clamp lets not-a-number through: both comparisons are false. -/
theorem clamp_nan (a b : F32) : clamp nan a b = nan := by
  cases a <;> cases b <;> rfl

/-- The clamp of a finite value between finite bounds. -/
theorem clamp_fin (v a b : ℚ) :
    clamp (fin v) (fin a) (fin b) = fin (if v < a then a else (if v > b then b else v)) := by
  unfold clamp lt gt lt
  by_cases h1 : v < a
  · simp [h1]
  · by_cases h2 : b < v
    · simp [h1, h2]
    · simp [h1, h2]

/-- A released trigger reads as pressure `0`, a fully pressed one as `1`. -/
theorem rawPedal_zero : div (ofInt ((0 : Nat) : Int)) (fin 255) = fin 0 := by
  have h : ofInt ((0 : Nat) : Int) = fin 0 := by simp [ofInt, rnd_zero]
  rw [h, div_fin_fin 0 255 (by norm_num)]
  simp [rnd_zero]

/-- With a released trigger and the pedal at `-1`, the difference the update
multiplies by `alphaPedal` is exactly `0`. -/
theorem pedal_released_delta :
    sub (sub (mul (div (ofInt ((0 : Nat) : Int)) (fin 255)) (fin 2)) (fin 1)) (fin (-1)) =
      fin 0 := by
  rw [rawPedal_zero, mul_fin_fin, zero_mul, rnd_zero, sub_fin_fin, zero_sub, rnd_neg_one,
    sub_fin_fin, sub_self, rnd_zero]

/-- An infinite pedal coefficient turns the rest position of a pedal into
not-a-number: `0 * inf`. -/
theorem pedalStep_inf_rest : pedalStep pinf 0 (fin (-1)) = nan := by
  unfold pedalStep
  simp only []
  rw [pedal_released_delta]
  have h : mul (fin 0) pinf = nan := by simp [mul, mulInf]
  rw [h, add_nan_right, clamp_nan]

theorem rnd_tenth : rnd 0.1 = fin (13421773 / 134217728) := by
  have h := rnd_eval 0.1 (-4) (-27) 13421773 (by norm_num) (by norm_num) (by norm_num)
    (by norm_num) (by norm_num) (by norm_num)
  rw [h]
  norm_num

theorem rnd_015 : rnd 0.15 = fin (5033165 / 33554432) := by
  have h := rnd_eval 0.15 (-3) (-26) 10066330 (by norm_num) (by norm_num) (by norm_num)
    (by norm_num) (by norm_num) (by norm_num)
  rw [h]
  norm_num

theorem rnd_006 : rnd 0.06 = fin (16106127 / 268435456) := by
  have h := rnd_eval 0.06 (-5) (-28) 16106127 (by norm_num) (by norm_num) (by norm_num)
    (by norm_num) (by norm_num) (by norm_num)
  rw [h]
  norm_num

/-- The travel limit for `max_angle=540`: the binary32 value nearest to `0.6`. -/
theorem angleLimitOf_540 : angleLimitOf 540 = fin (5033165 / 8388608) := by
  have h1 : rnd ((540 : Int) : ℚ) = fin 540 := by
    have := rnd_exact 540 540 0 (by norm_num) (by norm_num) (by norm_num) (by norm_num)
      (by norm_num)
    simpa using this
  have h2 : rnd (540 / 900) = fin (5033165 / 8388608) := by
    have h := rnd_eval (540 / 900) (-1) (-24) 10066330 (by norm_num) (by norm_num)
      (by norm_num) (by norm_num) (by norm_num) (by norm_num)
    rw [h]
    norm_num
  unfold angleLimitOf ofInt
  rw [h1, div_fin_fin 540 900 (by norm_num), h2, rnd_tenth, clamp_fin]
  norm_num

/-- The travel limit for `max_angle=90`: the binary32 value nearest to `0.1`. -/
theorem angleLimitOf_90 : angleLimitOf 90 = fin (13421773 / 134217728) := by
  have h1 : rnd ((90 : Int) : ℚ) = fin 90 := by
    have := rnd_exact 90 90 0 (by norm_num) (by norm_num) (by norm_num) (by norm_num)
      (by norm_num)
    simpa using this
  have h2 : rnd (90 / 900) = fin (13421773 / 134217728) := by
    have h := rnd_eval (90 / 900) (-4) (-27) 13421773 (by norm_num) (by norm_num)
      (by norm_num) (by norm_num) (by norm_num) (by norm_num)
    rw [h]
    norm_num
  unfold angleLimitOf ofInt
  rw [h1, div_fin_fin 90 900 (by norm_num), h2, rnd_tenth, clamp_fin]
  norm_num

/-- The encoder at the largest binary32 number below `1`: `v + 1.f` rounds up
to `2`, so the code returns `32767`. -/
theorem normAxis_below_one : normAxis (fin (16777215 / 16777216)) = some 32767 := by
  have h1 : add (fin (16777215 / 16777216)) (fin 1) = fin 2 := by
    rw [add_fin_fin]
    have := rnd_eval_tie_up (16777215 / 16777216 + 1) 0 (-23) 16777215 (by norm_num)
      (by norm_num) (by norm_num) (by norm_num) (by norm_num) (by norm_num) (by norm_num)
    rw [this]
    norm_num
  have h2 : mul (fin 2) (fin 16383.5) = fin 32767 := by
    rw [mul_fin_fin]
    have := rnd_exact (2 * 16383.5) 32767 0 (by norm_num) (by norm_num) (by norm_num)
      (by norm_num) (by norm_num)
    rw [this]
    norm_num
  unfold normAxis
  simp only []
  rw [clamp_fin]
  have hv : (if (16777215 / 16777216 : ℚ) < -1 then (-1 : ℚ)
      else if (16777215 / 16777216 : ℚ) > 1 then 1 else 16777215 / 16777216) =
      16777215 / 16777216 := by norm_num
  rw [hv, h1, h2]
  norm_num [toLONG]

/-- Full left lock is normalised to exactly `-1`. -/
theorem rawStick_left_lock : rawStick (-32768) = fin (-1) := by
  have h1 : rnd ((-32768 : Int) : ℚ) = fin (-32768) := by
    have := rnd_exact (-32768) (-32768) 0 (by norm_num) (by norm_num) (by norm_num)
      (by norm_num) (by norm_num)
    simpa using this
  unfold rawStick ofInt
  rw [h1, div_fin_fin _ 32768 (by norm_num)]
  norm_num [rnd_neg_one]

/-- With `deadzone = 1` full left lock leaves the deadzone stage as
not-a-number: `0.f / 0.f`. -/
theorem deadzoneStage_one_nan : deadzoneStage (rawStick (-32768)) (fin 1) = nan := by
  rw [rawStick_left_lock]
  unfold deadzoneStage
  have habs : |(-1 : ℚ)| = 1 := by norm_num
  have hlt : lt (fabs (fin (-1))) (fin 1) = false := by
    rw [fabs, habs]
    norm_num [lt]
  rw [hlt]
  simp only [Bool.false_eq_true, if_false]
  rw [fabs, habs, sub_fin_fin, sub_self, rnd_zero]
  simp [div, mul]

/-- A not-a-number stick value makes the steering position not-a-number: the
test `raw == 0.f` fails, the tracking branch runs and the final clamp lets
it through. -/
theorem steerStep_nan (powf : F32 → F32 → F32) (hpow : ∀ y, powf nan y = nan)
    (cfg : Config F32) (w : Nat) (steer : F32) : steerStep powf cfg nan w steer = nan := by
  have hg : apply_gamma powf nan cfg.gamma = nan := by
    unfold apply_gamma
    simp only [fabs, hpow, mul_nan_right]
  have ht : mul (apply_gamma powf nan cfg.gamma) cfg.angleLimit = nan := by
    rw [hg]
    cases cfg.angleLimit <;> rfl
  have hm : ∀ a : F32, mul nan a = nan := by
    intro a
    cases a <;> rfl
  unfold steerStep
  have heq : eq nan (fin 0) = false := rfl
  simp only [heq, Bool.false_eq_true, if_false]
  rw [ht, sub_nan_left, hm, add_nan_right, clamp_nan]

/-- Full left lock with deadzone `0` is normalised to `-1`. -/
theorem deadzoneStage_left_lock : deadzoneStage (rawStick (-32768)) (fin 0) = fin (-1) := by
  rw [rawStick_left_lock]
  unfold deadzoneStage
  have habs : |(-1 : ℚ)| = 1 := by norm_num
  have hlt : lt (fabs (fin (-1))) (fin 0) = false := by
    rw [fabs, habs]
    norm_num [lt]
  have hgt : gt (fin (-1)) (fin 0) = false := by
    norm_num [gt, lt]
  rw [hlt, hgt]
  simp only [Bool.false_eq_true, if_false]
  rw [fabs, habs, sub_fin_fin, sub_zero, rnd_one, div_fin_fin 1 1 (by norm_num), div_one,
    rnd_one, mul_fin_fin, one_mul, rnd_neg_one]

/-- Tracking full left lock from the centre with the coefficient `2^-149` under
the travel limit of `max_angle=90`: the increment `-0.1f * 2^-149` underflows
to `0` and the position stays `0`. -/
theorem steerStep_left_lock_stall (powf : F32 → F32 → F32)
    (hpow : ∀ y, powf (fin 1) y = fin 1) (cfg : Config F32)
    (ha : cfg.alphaWheelBase = fin denormMin) (hL : cfg.angleLimit = angleLimitOf 90) :
    steerStep powf cfg (fin (-1)) 0 (fin 0) = fin 0 := by
  have habs : |(-1 : ℚ)| = 1 := by norm_num
  have hgam : apply_gamma powf (fin (-1)) cfg.gamma = fin (-1) := by
    unfold apply_gamma
    have hge : ge (fin (-1)) (fin 0) = false := by norm_num [ge, gt, lt, eq]
    simp only [hge, Bool.false_eq_true, if_false]
    rw [fabs, habs, hpow, mul_fin_fin, mul_one, rnd_neg_one]
  have hten : rnd (13421773 / 134217728) = fin (13421773 / 134217728) :=
    rnd_exact (13421773 / 134217728) 13421773 (-27) (by norm_num) (by norm_num)
      (by norm_num) (by norm_num) (by norm_num)
  have ht : mul (apply_gamma powf (fin (-1)) cfg.gamma) cfg.angleLimit =
      fin (-(13421773 / 134217728)) := by
    rw [hgam, hL, angleLimitOf_90, mul_fin_fin]
    have h : (-1 * (13421773 / 134217728) : ℚ) = -(13421773 / 134217728) := by ring
    rw [h, rnd_neg, hten]
    rfl
  have hd : sub (fin (-(13421773 / 134217728))) (fin 0) = fin (-(13421773 / 134217728)) := by
    rw [sub_fin_fin, sub_zero, rnd_neg, hten]
    rfl
  have halpha : alphaWheelCurrent cfg.alphaWheelBase 0 = fin denormMin := by
    rw [ha]
    simp [alphaWheelCurrent, XINPUT_GAMEPAD_X, XINPUT_GAMEPAD_B]
  have hm : mul (fin (-(13421773 / 134217728))) (fin denormMin) = fin 0 := by
    rw [mul_fin_fin]
    have h : (-(13421773 / 134217728) * denormMin : ℚ) =
        -(13421773 / 134217728 * denormMin) := by ring
    have := rnd_eval (13421773 / 134217728 * denormMin) (-153) (-149) 0
      (by norm_num [denormMin]) (by norm_num [denormMin]) (by norm_num)
      (by norm_num [denormMin]) (by norm_num [denormMin]) (by norm_num)
    rw [h, rnd_neg, this]
    norm_num [neg]
  unfold steerStep
  have heq : eq (fin (-1)) (fin 0) = false := by norm_num [eq]
  simp only [heq, Bool.false_eq_true, if_false]
  rw [ht, hd, halpha, hm, add_fin_fin, add_zero, rnd_zero, hL, angleLimitOf_90, neg, clamp_fin]
  norm_num

/-! ### The state invariant on the binary32 reading -/

theorem rnd_fin_of_abs_le (x : ℚ) (k : ℕ) (hk : k ≤ 32) (hx : |x| ≤ 2 ^ k) :
    ∃ r : ℚ, rnd x = fin r ∧ |r| ≤ 2 ^ k :=
  ⟨roundQ x, rnd_abs_le x k hk hx⟩

/-- The clamp of anything but not-a-number between finite bounds is a finite
value within the bounds. -/
theorem clamp_of_ne_nan (v : F32) (hv : v ≠ nan) (a b : ℚ) (hab : a ≤ b) :
    ∃ c : ℚ, clamp v (fin a) (fin b) = fin c ∧ a ≤ c ∧ c ≤ b := by
  cases v with
  | nan => exact absurd rfl hv
  | ninf => exact ⟨a, by simp [clamp, lt], le_refl a, hab⟩
  | pinf => exact ⟨b, by simp [clamp, lt, gt], hab, le_refl b⟩
  | fin q =>
    refine ⟨_, clamp_fin q a b, ?_, ?_⟩
    · split_ifs <;> linarith
    · split_ifs <;> linarith

theorem add_fin_ne_nan (a : ℚ) (y : F32) (hy : y ≠ nan) : add (fin a) y ≠ nan := by
  cases y with
  | nan => exact absurd rfl hy
  | ninf => simp [add]
  | pinf => simp [add]
  | fin b => exact rnd_ne_nan _

theorem mul_fin_ne_nan (x : F32) (hx : x ≠ nan) (k : ℚ) (hk : k ≠ 0) : mul x (fin k) ≠ nan := by
  cases x with
  | nan => exact absurd rfl hx
  | ninf =>
    simp only [mul, mulInf, if_neg hk]
    split_ifs <;> simp
  | pinf =>
    simp only [mul, mulInf, if_neg hk]
    split_ifs <;> simp
  | fin b => exact rnd_ne_nan _

theorem div_fin_ne_nan (x : F32) (hx : x ≠ nan) (b : ℚ) (hb : b ≠ 0) : div x (fin b) ≠ nan := by
  cases x with
  | nan => exact absurd rfl hx
  | ninf =>
    simp only [div]
    split_ifs <;> simp
  | pinf =>
    simp only [div]
    split_ifs <;> simp
  | fin a =>
    rw [div_fin_fin a b hb]
    exact rnd_ne_nan _

/-- The travel limit is a finite value in `[0.1f, 1]` for every `max_angle`. -/
theorem angleLimitOf_fin (maxAngleDeg : Int) :
    ∃ limit : ℚ, angleLimitOf maxAngleDeg = fin limit ∧ 13421773 / 134217728 ≤ limit ∧
      limit ≤ 1 := by
  unfold angleLimitOf
  rw [rnd_tenth]
  exact clamp_of_ne_nan _ (div_fin_ne_nan _ (rnd_ne_nan _) 900 (by norm_num)) _ _ (by norm_num)

/-- One pedal update keeps a finite pedal position in `[-1, 1]`, for every
finite coefficient and every `BYTE` trigger value. -/
theorem pedalStep_fin (alphaPedal g : ℚ) (t : Nat) (ht : t < 256)
    (hg : -1 ≤ g ∧ g ≤ 1) :
    ∃ g2 : ℚ, pedalStep (fin alphaPedal) t (fin g) = fin g2 ∧ -1 ≤ g2 ∧ g2 ≤ 1 := by
  have htq : |((t : Int) : ℚ)| ≤ 2 ^ 8 := by
    have h1 : ((t : Int) : ℚ) ≤ 256 := by exact_mod_cast ht.le
    have h0 : (0 : ℚ) ≤ ((t : Int) : ℚ) := by exact_mod_cast Nat.zero_le t
    rw [abs_of_nonneg h0]
    have : (2 : ℚ) ^ 8 = 256 := by norm_num
    rw [this]
    exact h1
  obtain ⟨r0, hr0, hb0⟩ := rnd_fin_of_abs_le _ 8 (by norm_num) htq
  have hb0' := abs_le.mp hb0
  obtain ⟨p, hp, hbp⟩ := rnd_fin_of_abs_le (r0 / 255) 8 (by norm_num) (by
    rw [abs_div, abs_of_pos (by norm_num : (0 : ℚ) < 255)]
    rw [div_le_iff₀ (by norm_num)]
    have := abs_nonneg r0
    linarith)
  obtain ⟨m, hm, hbm⟩ := rnd_fin_of_abs_le (p * 2) 9 (by norm_num) (by
    rw [abs_mul, abs_of_pos (by norm_num : (0 : ℚ) < 2)]
    have : (2 : ℚ) ^ 9 = 2 ^ 8 * 2 := by norm_num
    rw [this]
    linarith)
  obtain ⟨q, hq, hbq⟩ := rnd_fin_of_abs_le (m - 1) 10 (by norm_num) (by
    have h := abs_sub m 1
    have h1 : |(1 : ℚ)| = 1 := abs_one
    have : (2 : ℚ) ^ 10 = 2 ^ 9 + 2 ^ 9 := by norm_num
    have h9 : (1 : ℚ) ≤ 2 ^ 9 := by norm_num
    linarith)
  obtain ⟨d, hd, _⟩ := rnd_fin_of_abs_le (q - g) 11 (by norm_num) (by
    have h := abs_sub q g
    have hg1 : |g| ≤ 1 := abs_le.mpr hg
    have : (2 : ℚ) ^ 11 = 2 ^ 10 + 2 ^ 10 := by norm_num
    have h10 : (1 : ℚ) ≤ 2 ^ 10 := by norm_num
    linarith)
  unfold pedalStep ofInt
  simp only []
  rw [hr0, div_fin_fin r0 255 (by norm_num), hp, mul_fin_fin, hm, sub_fin_fin, hq,
    sub_fin_fin, hd, mul_fin_fin]
  exact clamp_of_ne_nan _ (add_fin_ne_nan g _ (rnd_ne_nan _)) _ _ (by norm_num)

/-- Every `SHORT` stick reading is normalised to a finite value in `[-1, 1]`
by the deadzone stage, for a binary32 deadzone in `[0, 1)`. -/
theorem deadzoneStage_fin (x : Int) (hx1 : -32768 ≤ x) (hx2 : x ≤ 32767) (d : ℚ)
    (hd : roundQ d = d) (h0 : 0 ≤ d) (h1 : d < 1) :
    ∃ r : ℚ, deadzoneStage (rawStick x) (fin d) = fin r ∧ |r| ≤ 1 := by
  have hxq : |(x : ℚ)| ≤ 2 ^ 15 := by
    have ha : (-32768 : ℚ) ≤ (x : ℚ) := by exact_mod_cast hx1
    have hb : (x : ℚ) ≤ 32767 := by exact_mod_cast hx2
    rw [abs_le]
    constructor <;> norm_num <;> linarith
  obtain ⟨r0, hr0, hb0⟩ := rnd_fin_of_abs_le _ 15 (by norm_num) hxq
  obtain ⟨r1, hr1, hb1⟩ := rnd_fin_of_abs_le (r0 / 32768) 0 (by norm_num) (by
    rw [abs_div, abs_of_pos (by norm_num : (0 : ℚ) < 32768), div_le_iff₀ (by norm_num)]
    have : (2 : ℚ) ^ 15 = 2 ^ 0 * 32768 := by norm_num
    linarith)
  have hb1' : |r1| ≤ 1 := by simpa using hb1
  have hraw : rawStick x = fin r1 := by
    unfold rawStick ofInt
    rw [hr0, div_fin_fin r0 32768 (by norm_num), hr1]
  rw [hraw]
  unfold deadzoneStage
  by_cases hlt : |r1| < d
  · have : lt (fabs (fin r1)) (fin d) = true := by simp [fabs, lt, hlt]
    rw [if_pos this]
    exact ⟨0, rfl, by norm_num⟩
  · have hlt2 : lt (fabs (fin r1)) (fin d) = false := by simp [fabs, lt, hlt]
    rw [hlt2]
    simp only [Bool.false_eq_true, if_false]
    have hge : d ≤ |r1| := not_lt.mp hlt
    -- numerator and denominator
    obtain ⟨hnum, hnum0, hnum1⟩ := rnd_between (|r1| - d) 0 1 roundQ_zero roundQ_one
      (by linarith) (by linarith) (by norm_num) (by norm_num)
    obtain ⟨hden, _, hden1⟩ := rnd_between (1 - d) 0 1 roundQ_zero roundQ_one
      (by linarith) (by linarith) (by norm_num) (by norm_num)
    have hdenpos := roundQ_one_sub_pos d hd h1
    have hle : roundQ (|r1| - d) ≤ roundQ (1 - d) := roundQ_mono (by linarith)
    obtain ⟨hq, hq0, hq1⟩ := rnd_between (roundQ (|r1| - d) / roundQ (1 - d)) 0 1
      roundQ_zero roundQ_one (div_nonneg hnum0 hdenpos.le)
      ((div_le_one hdenpos).mpr hle) (by norm_num) (by norm_num)
    rw [fabs, sub_fin_fin, hnum, sub_fin_fin, hden, div_fin_fin _ _ hdenpos.ne', hq]
    by_cases hpos : 0 < r1
    · have : gt (fin r1) (fin 0) = true := by simp [gt, lt, hpos]
      rw [if_pos this, mul_fin_fin, mul_one]
      obtain ⟨hr, ha, hb⟩ := rnd_between _ 0 1 roundQ_zero roundQ_one hq0 hq1
        (by norm_num) (by norm_num)
      exact ⟨_, hr, abs_le.mpr ⟨by linarith, hb⟩⟩
    · have : gt (fin r1) (fin 0) = false := by simp [gt, lt, hpos]
      rw [this]
      simp only [Bool.false_eq_true, if_false]
      rw [mul_fin_fin, mul_neg_one, rnd_neg]
      obtain ⟨hr, ha, hb⟩ := rnd_between _ 0 1 roundQ_zero roundQ_one hq0 hq1
        (by norm_num) (by norm_num)
      rw [hr]
      exact ⟨_, rfl, by rw [abs_neg]; exact abs_le.mpr ⟨by linarith, hb⟩⟩

/-- The modifier tests keep a coefficient of magnitude at most `1` finite. -/
theorem alphaWheelCurrent_fin (b : ℚ) (hb : |b| ≤ 1) (w : Nat) :
    ∃ a : ℚ, alphaWheelCurrent (fin b) w = fin a := by
  have h15 : ∀ c : ℚ, |c| ≤ 2 ^ 1 → ∃ a : ℚ, mul (fin c) (fin 0.5) = fin a := by
    intro c hc
    obtain ⟨a, ha, _⟩ := rnd_fin_of_abs_le (c * 0.5) 1 (by norm_num) (by
      rw [abs_mul, abs_of_pos (by norm_num : (0 : ℚ) < 0.5)]
      have := abs_nonneg c
      linarith)
    exact ⟨a, ha⟩
  obtain ⟨a1, ha1, hb1⟩ := rnd_fin_of_abs_le (b * 1.5) 1 (by norm_num) (by
    rw [abs_mul, abs_of_pos (by norm_num : (0 : ℚ) < 1.5)]
    have := abs_nonneg b
    norm_num
    linarith)
  unfold alphaWheelCurrent
  simp only []
  by_cases hx : (w &&& XINPUT_GAMEPAD_X != 0) = true <;>
    by_cases hbb : (w &&& XINPUT_GAMEPAD_B != 0) = true
  · simp only [hx, hbb, if_true, mul_fin_fin] at ha1 ⊢
    rw [ha1]
    exact h15 a1 hb1
  · simp only [hx, hbb, if_true, mul_fin_fin] at ha1 ⊢
    exact ⟨a1, ha1⟩
  · simp only [hx, hbb, if_true]
    exact h15 b (by have : (1 : ℚ) ≤ 2 ^ 1 := by norm_num
                    linarith)
  · simp only [hx, hbb]
    exact ⟨b, rfl⟩

/-- One steering update keeps a finite position within the travel limit when
the normalised stick value is finite in `[-1, 1]`, gamma is finite and
positive, the base coefficient has magnitude at most `1`, the centering spring
is finite and `powf` maps `[0,1]` into `[0,1]` for a positive exponent. -/
theorem steerStep_fin (powf : F32 → F32 → F32)
    (hpow : ∀ x y : ℚ, 0 ≤ x → x ≤ 1 → 0 < y →
      ∃ z : ℚ, powf (fin x) (fin y) = fin z ∧ 0 ≤ z ∧ z ≤ 1)
    (cfg : Config F32) (gam b cs limit : ℚ)
    (hgam : cfg.gamma = fin gam) (hgam0 : 0 < gam)
    (hbase : cfg.alphaWheelBase = fin b) (hb : |b| ≤ 1)
    (hcs : cfg.centerSpring = fin cs)
    (hlim : cfg.angleLimit = fin limit) (hl0 : 0 ≤ limit) (hl1 : limit ≤ 1)
    (r : ℚ) (hr : |r| ≤ 1) (w : Nat) (st : ℚ) (hst : |st| ≤ limit) :
    ∃ s2 : ℚ, steerStep powf cfg (fin r) w (fin st) = fin s2 ∧ |s2| ≤ limit := by
  have hst1 : |st| ≤ 1 := le_trans hst hl1
  have hfinal : ∀ v : F32, v ≠ nan →
      ∃ s2 : ℚ, clamp v (neg cfg.angleLimit) cfg.angleLimit = fin s2 ∧ |s2| ≤ limit := by
    intro v hv
    rw [hlim, neg]
    obtain ⟨c, hc, hc0, hc1⟩ := clamp_of_ne_nan v hv (-limit) limit (by linarith)
    exact ⟨c, hc, abs_le.mpr ⟨hc0, hc1⟩⟩
  unfold steerStep
  by_cases hz : r = 0
  · -- centering branch
    have heq : eq (fin r) (fin 0) = true := by simp [eq, hz]
    simp only [heq, if_true]
    apply hfinal
    obtain ⟨k, hk, hk0, _⟩ := clamp_of_ne_nan (mul (fabs (fin st)) (fin 2.5))
      (by rw [fabs, mul_fin_fin]; exact rnd_ne_nan _) (5033165 / 33554432) 1 (by norm_num)
    obtain ⟨d, hd, _⟩ := rnd_fin_of_abs_le (0 - st) 0 (by norm_num) (by
      rw [zero_sub, abs_neg]
      simpa using hst1)
    rw [rnd_015, hk, sub_fin_fin, hd, hcs, mul_fin_fin]
    exact add_fin_ne_nan st _
      (mul_fin_ne_nan _ (rnd_ne_nan _) k (by
        intro h0
        rw [h0] at hk0
        norm_num at hk0))
  · -- tracking branch
    have heq : eq (fin r) (fin 0) = false := by simp [eq, hz]
    simp only [heq, Bool.false_eq_true, if_false]
    apply hfinal
    obtain ⟨z, hzp, hz0, hz1⟩ := hpow |r| gam (abs_nonneg r) hr hgam0
    have hg : ∃ g : ℚ, apply_gamma powf (fin r) cfg.gamma = fin g ∧ |g| ≤ 1 := by
      unfold apply_gamma
      simp only []
      rw [hgam, fabs, hzp]
      have hzabs : |z| ≤ 2 ^ 0 := by
        rw [abs_of_nonneg hz0]
        simpa using hz1
      by_cases hge : ge (fin r) (fin 0) = true
      · rw [if_pos hge, mul_fin_fin, one_mul]
        obtain ⟨g, hg, hgb⟩ := rnd_fin_of_abs_le z 0 (by norm_num) hzabs
        exact ⟨g, hg, by simpa using hgb⟩
      · rw [if_neg hge, mul_fin_fin]
        obtain ⟨g, hg, hgb⟩ := rnd_fin_of_abs_le (-1 * z) 0 (by norm_num) (by
          rw [neg_one_mul, abs_neg]
          exact hzabs)
        exact ⟨g, hg, by simpa using hgb⟩
    obtain ⟨g, hg, hgb⟩ := hg
    obtain ⟨t, ht, htb⟩ := rnd_fin_of_abs_le (g * limit) 0 (by norm_num) (by
      rw [abs_mul, abs_of_nonneg hl0]
      have := abs_nonneg g
      have h1 : |g| * limit ≤ 1 * 1 := mul_le_mul hgb hl1 hl0 (by norm_num)
      simpa using h1)
    have htb' : |t| ≤ 1 := by simpa using htb
    obtain ⟨d, hd, _⟩ := rnd_fin_of_abs_le (t - st) 1 (by norm_num) (by
      have h := abs_sub t st
      have : (2 : ℚ) ^ 1 = 1 + 1 := by norm_num
      linarith)
    obtain ⟨a, ha⟩ := alphaWheelCurrent_fin b hb w
    rw [hg, hlim, mul_fin_fin, ht, sub_fin_fin, hd, hbase, ha, mul_fin_fin]
    exact add_fin_ne_nan st _ (rnd_ne_nan _)

/-- One pass keeps a state of finite positions within their bounds. -/
theorem tick_fin (powf : F32 → F32 → F32)
    (hpow : ∀ x y : ℚ, 0 ≤ x → x ≤ 1 → 0 < y →
      ∃ z : ℚ, powf (fin x) (fin y) = fin z ∧ 0 ≤ z ∧ z ≤ 1)
    (cfg : Config F32) (d gam b cs ap limit : ℚ)
    (hdz : cfg.deadzone = fin d) (hd : roundQ d = d) (hd0 : 0 ≤ d) (hd1 : d < 1)
    (hgam : cfg.gamma = fin gam) (hgam0 : 0 < gam)
    (hbase : cfg.alphaWheelBase = fin b) (hb : |b| ≤ 1)
    (hcs : cfg.centerSpring = fin cs) (hap : cfg.alphaPedal = fin ap)
    (hlim : cfg.angleLimit = fin limit) (hl0 : 0 ≤ limit) (hl1 : limit ≤ 1)
    (s : Gamepad) (hs : s.wf) (st : State F32)
    (hst : ∃ x g k : ℚ, st = ⟨fin x, fin g, fin k⟩ ∧ |x| ≤ limit ∧
      (-1 ≤ g ∧ g ≤ 1) ∧ (-1 ≤ k ∧ k ≤ 1)) :
    ∃ x g k : ℚ, tick powf cfg s st = ⟨fin x, fin g, fin k⟩ ∧ |x| ≤ limit ∧
      (-1 ≤ g ∧ g ≤ 1) ∧ (-1 ≤ k ∧ k ≤ 1) := by
  obtain ⟨x, g, k, rfl, hx, hg, hk⟩ := hst
  obtain ⟨_, hleft, hright, hlo, hhi⟩ := hs
  obtain ⟨r, hr, hrb⟩ := deadzoneStage_fin s.sThumbLX hlo hhi d hd hd0 hd1
  obtain ⟨x2, hx2, hx2b⟩ := steerStep_fin powf hpow cfg gam b cs limit hgam hgam0 hbase hb
    hcs hlim hl0 hl1 r hrb s.wButtons x hx
  obtain ⟨g2, hg2, hg2b⟩ := pedalStep_fin ap g s.bRightTrigger hright hg
  obtain ⟨k2, hk2, hk2b⟩ := pedalStep_fin ap k s.bLeftTrigger hleft hk
  refine ⟨x2, g2, k2, ?_, hx2b, hg2b, hk2b⟩
  simp only [tick, hdz, hr, hx2, hap, hg2, hk2]

/-! ### The rest state and the encoder on the binary32 reading -/

/-- A centred stick is normalised to `0` for every finite deadzone `≥ 0`. -/
theorem deadzoneStage_rest (d : ℚ) (hd : 0 ≤ d) : deadzoneStage (rawStick 0) (fin d) = fin 0 := by
  have h : rawStick 0 = fin 0 := by
    simp only [rawStick, ofInt, Int.cast_zero, rnd_zero]
    rw [div_fin_fin 0 32768 (by norm_num), zero_div, rnd_zero]
  rw [h]
  unfold deadzoneStage
  rcases eq_or_lt_of_le hd with h0 | hpos
  · subst h0
    have hlt : lt (fabs (fin 0)) (fin 0) = false := by simp [fabs, lt]
    have hgt : gt (fin 0) (fin 0) = false := by simp [gt, lt]
    rw [hlt, hgt]
    simp only [Bool.false_eq_true, if_false]
    rw [fabs, abs_zero, sub_fin_fin, sub_zero, rnd_zero, sub_fin_fin, sub_zero, rnd_one,
      div_fin_fin 0 1 (by norm_num), zero_div, rnd_zero, mul_fin_fin, zero_mul, rnd_zero]
  · have hlt : lt (fabs (fin 0)) (fin d) = true := by simp [fabs, lt, hpos]
    rw [if_pos hlt]

/-- A centred wheel with zero effective input stays centred, for every finite
centering spring and every finite travel limit `≥ 0`. -/
theorem steerStep_rest (powf : F32 → F32 → F32) (cfg : Config F32) (cs limit : ℚ)
    (hcs : cfg.centerSpring = fin cs) (hlim : cfg.angleLimit = fin limit) (hl0 : 0 ≤ limit)
    (w : Nat) : steerStep powf cfg (fin 0) w (fin 0) = fin 0 := by
  have hk : clamp (mul (fabs (fin 0)) (fin 2.5)) (rnd 0.15) (fin 1) =
      fin (5033165 / 33554432) := by
    rw [fabs, abs_zero, mul_fin_fin, zero_mul, rnd_zero, rnd_015, clamp_fin]
    norm_num
  unfold steerStep
  have heq : eq (fin 0) (fin 0) = true := by simp [eq]
  simp only [heq, if_true]
  rw [hk, sub_fin_fin, sub_zero, rnd_zero, hcs, mul_fin_fin, zero_mul, rnd_zero, mul_fin_fin,
    zero_mul, rnd_zero, add_fin_fin, add_zero, rnd_zero, hlim, neg, clamp_fin]
  have h1 : ¬ ((0 : ℚ) < -limit) := by linarith
  have h2 : ¬ ((0 : ℚ) > limit) := by
    intro h
    linarith
  rw [if_neg h1, if_neg h2]

/-- A released trigger keeps a pedal at `-1`, for every finite coefficient. -/
theorem pedalStep_rest (ap : ℚ) : pedalStep (fin ap) 0 (fin (-1)) = fin (-1) := by
  unfold pedalStep
  simp only []
  rw [pedal_released_delta, mul_fin_fin, zero_mul, rnd_zero, add_fin_fin, add_zero,
    rnd_neg_one, clamp_fin]
  norm_num

/-- The rest state is kept by a pass with the neutral snapshot. -/
theorem tick32_rest (powf : F32 → F32 → F32) (cfg : Config F32) (d cs ap limit : ℚ)
    (hdz : cfg.deadzone = fin d) (hd : 0 ≤ d) (hcs : cfg.centerSpring = fin cs)
    (hap : cfg.alphaPedal = fin ap) (hlim : cfg.angleLimit = fin limit) (hl0 : 0 ≤ limit) :
    tick powf cfg zeroGamepad initState = initState := by
  simp only [tick, zeroGamepad, initState, hdz, deadzoneStage_rest d hd, hap, pedalStep_rest,
    steerStep_rest powf cfg cs limit hcs hlim hl0]

theorem normAxis32_zero : normAxis (fin 0) = some 16383 := by
  have h2 : mul (fin 1) (fin 16383.5) = fin 16383.5 := by
    rw [mul_fin_fin, one_mul]
    exact rnd_exact 16383.5 32767 (-1) (by norm_num) (by norm_num) (by norm_num)
      (by norm_num) (by norm_num)
  unfold normAxis
  simp only []
  rw [clamp_fin]
  have hv : (if (0 : ℚ) < -1 then (-1 : ℚ) else if (0 : ℚ) > 1 then 1 else 0) = 0 := by
    norm_num
  rw [hv, add_fin_fin, zero_add, rnd_one, h2]
  norm_num [toLONG, Int.floor_eq_iff]

theorem normAxis32_neg_one : normAxis (fin (-1)) = some 0 := by
  unfold normAxis
  simp only []
  rw [clamp_fin]
  have hv : (if (-1 : ℚ) < -1 then (-1 : ℚ) else if (-1 : ℚ) > 1 then 1 else -1) = -1 := by
    norm_num
  rw [hv, add_fin_fin]
  norm_num [rnd_zero, mul_fin_fin, toLONG]

/-- The encoder on a finite value: the floor of the twice rounded product, a
value in `[0, 32767]`. -/
theorem normAxis_fin (v : ℚ) :
    normAxis (fin v) =
        some ⌊roundQ (roundQ (Contoller.clamp v (-1) 1 + 1) * 16383.5)⌋ ∧
      0 ≤ roundQ (roundQ (Contoller.clamp v (-1) 1 + 1) * 16383.5) ∧
      roundQ (roundQ (Contoller.clamp v (-1) 1 + 1) * 16383.5) ≤ 32767 := by
  have hab : (-1 : ℚ) ≤ 1 := by norm_num
  have hc0 := clamp_ge v hab
  have hc1 := clamp_le v hab
  have h2 : roundQ 2 = 2 := by
    have := roundQ_two_zpow 1 (by norm_num)
    simpa using this
  have hmax : roundQ 32767 = 32767 := by
    have := roundQ_dyadic 32767 0 (by norm_num) (by norm_num) (by norm_num)
    simpa using this
  obtain ⟨ha, ha0, ha1⟩ := rnd_between (Contoller.clamp v (-1) 1 + 1) 0 2 roundQ_zero h2
    (by linarith) (by linarith) (by norm_num) (by norm_num)
  obtain ⟨hb, hb0, hb1⟩ := rnd_between (roundQ (Contoller.clamp v (-1) 1 + 1) * 16383.5) 0 32767
    roundQ_zero hmax (mul_nonneg ha0 (by norm_num))
    (by
      have : roundQ (Contoller.clamp v (-1) 1 + 1) * 16383.5 ≤ 2 * 16383.5 :=
        mul_le_mul_of_nonneg_right ha1 (by norm_num)
      linarith)
    (by norm_num) (by norm_num)
  refine ⟨?_, hb0, hb1⟩
  unfold normAxis
  simp only []
  rw [clamp_fin]
  have hcl : (if v < -1 then (-1 : ℚ) else if v > 1 then 1 else v) =
      Contoller.clamp v (-1) 1 := rfl
  rw [hcl, add_fin_fin, ha, mul_fin_fin, hb]
  simp only [toLONG]
  rw [if_pos ⟨by linarith, by linarith⟩, if_pos hb0]

end Binary32

/-! ## The claims -/

/-- The shaper-state invariant on the exact-arithmetic reading: there every
configuration keeps it, because the exact field has no not-a-number. The
statement on the binary32 reading is `shaper_state_invariant_binary32`. -/
theorem shaper_state_invariant (deadzone gamma alpha centerSpring alphaPedal : Option ℝ)
    (maxAngleDeg : Int) (snaps : Nat → Gamepad) (n : Nat) :
    |(stateAfter Real.rpow
        (loadConfig deadzone gamma alpha centerSpring maxAngleDeg alphaPedal)
        snaps initState n).steer| ≤ angleLimitOf maxAngleDeg ∧
      (stateAfter Real.rpow
        (loadConfig deadzone gamma alpha centerSpring maxAngleDeg alphaPedal)
        snaps initState n).gas ∈ Set.Icc (-1 : ℝ) 1 ∧
      (stateAfter Real.rpow
        (loadConfig deadzone gamma alpha centerSpring maxAngleDeg alphaPedal)
        snaps initState n).brake ∈ Set.Icc (-1 : ℝ) 1 := by
  have hL : (0 : ℝ) ≤
      (loadConfig deadzone gamma alpha centerSpring maxAngleDeg alphaPedal).angleLimit :=
    (angleLimitOf_pos maxAngleDeg).le
  have h := stateAfter_invariant Real.rpow
    (loadConfig deadzone gamma alpha centerSpring maxAngleDeg alphaPedal) snaps initState hL
    (by simpa [initState] using hL) (by norm_num [initState]) (by norm_num [initState]) n
  exact ⟨h.1, Set.mem_Icc.mpr h.2.1, Set.mem_Icc.mpr h.2.2⟩

/-- C1, as the claim states it, fails on the binary32 reading. With
`deadzone=1` and full left lock the deadzone stage computes `0.f / 0.f`, the
steering position becomes not-a-number after one pass, and not-a-number fails
the test `fabs(steer) <= angleLimit`. With an infinite pedal coefficient (what
`iniFloat` returns for `alpha=1e39`) a released trigger turns the gas position
`-1` into not-a-number after one pass. -/
theorem shaper_state_nan_counterexample :
    F32.le (F32.fabs F32.nan) (Binary32.angleLimitOf 540) = false ∧
      (∀ (powf : F32 → F32 → F32), (∀ y, powf F32.nan y = F32.nan) →
        ∀ (cfg : Config F32) (s : Gamepad) (st : State F32),
          cfg.deadzone = F32.fin 1 → s.sThumbLX = -32768 →
          (Binary32.tick powf cfg s st).steer = F32.nan) ∧
      (∀ (powf : F32 → F32 → F32) (cfg : Config F32) (s : Gamepad),
        cfg.alphaPedal = F32.pinf → s.bRightTrigger = 0 →
        (Binary32.tick powf cfg s Binary32.initState).gas = F32.nan) := by
  refine ⟨?_, ?_, ?_⟩
  · rw [Binary32.angleLimitOf_540]
    rfl
  · intro powf hpow cfg s st hd hs
    simp only [Binary32.tick, hd, hs, Binary32.deadzoneStage_one_nan]
    exact Binary32.steerStep_nan powf hpow cfg _ _
  · intro powf cfg s ha ht
    simp only [Binary32.tick, ha, ht, Binary32.initState]
    exact Binary32.pedalStep_inf_rest

/-- C1, amended. On the binary32 reading, for every configuration whose
deadzone is a binary32 number in `[0,1)`, whose gamma is finite and positive,
whose steering alpha lies in `[0,1]` and whose centering spring and pedal
alpha are finite, with the travel limit derived from any `max_angle`, and for
every sequence of snapshots within the device ranges: after any number of
passes from the startup state the three positions are finite, the steering
position is within the travel limit in absolute value and both pedal
positions are in `[-1, 1]`. (`powf` is any function that maps `[0,1]` into
`[0,1]` for a positive exponent.) -/
theorem shaper_state_invariant_binary32 (powf : F32 → F32 → F32)
    (hpow : ∀ x y : ℚ, 0 ≤ x → x ≤ 1 → 0 < y →
      ∃ z : ℚ, powf (F32.fin x) (F32.fin y) = F32.fin z ∧ 0 ≤ z ∧ z ≤ 1)
    (cfg : Config F32) (d gam b cs ap : ℚ) (maxAngleDeg : Int)
    (hdz : cfg.deadzone = F32.fin d) (hd : F32.roundQ d = d) (hd01 : 0 ≤ d ∧ d < 1)
    (hgam : cfg.gamma = F32.fin gam) (hgam0 : 0 < gam)
    (hbase : cfg.alphaWheelBase = F32.fin b) (hb : 0 ≤ b ∧ b ≤ 1)
    (hcs : cfg.centerSpring = F32.fin cs) (hap : cfg.alphaPedal = F32.fin ap)
    (hlim : cfg.angleLimit = Binary32.angleLimitOf maxAngleDeg)
    (snaps : Nat → Gamepad) (hwf : ∀ i, (snaps i).wf) (n : Nat) :
    ∃ x g k limit : ℚ, cfg.angleLimit = F32.fin limit ∧
      Binary32.stateAfter powf cfg snaps Binary32.initState n =
        ⟨F32.fin x, F32.fin g, F32.fin k⟩ ∧
      |x| ≤ limit ∧ (-1 ≤ g ∧ g ≤ 1) ∧ (-1 ≤ k ∧ k ≤ 1) := by
  obtain ⟨limit, hlimit, hl0, hl1⟩ := Binary32.angleLimitOf_fin maxAngleDeg
  have hlim2 : cfg.angleLimit = F32.fin limit := by rw [hlim, hlimit]
  have hl0' : (0 : ℚ) ≤ limit := le_trans (by norm_num) hl0
  have hbabs : |b| ≤ 1 := abs_le.mpr ⟨by linarith [hb.1], hb.2⟩
  have key : ∃ x g k : ℚ,
      Binary32.stateAfter powf cfg snaps Binary32.initState n =
        ⟨F32.fin x, F32.fin g, F32.fin k⟩ ∧
      |x| ≤ limit ∧ (-1 ≤ g ∧ g ≤ 1) ∧ (-1 ≤ k ∧ k ≤ 1) := by
    induction n with
    | zero =>
      exact ⟨0, -1, -1, rfl, by simpa using hl0', by norm_num, by norm_num⟩
    | succ n ih =>
      simp only [Binary32.stateAfter]
      exact Binary32.tick_fin powf hpow cfg d gam b cs ap limit hdz hd hd01.1 hd01.2 hgam
        hgam0 hbase hbabs hcs hap hlim2 hl0' hl1 (snaps n) (hwf n) _ ih
  obtain ⟨x, g, k, hst, hx, hg, hk⟩ := key
  exact ⟨x, g, k, limit, hlim2, hst, hx, hg, hk⟩

theorem shaper_state_invariant_binary32_witness :
    ∃ x g k limit : ℚ,
      (⟨F32.fin (16106127 / 268435456), F32.fin (5452595 / 4194304),
        F32.fin (5368709 / 134217728), F32.fin (16106127 / 134217728),
        Binary32.angleLimitOf 540, F32.fin (5033165 / 16777216)⟩ : Config F32).angleLimit =
          F32.fin limit ∧
      Binary32.stateAfter (fun x _ => x)
        ⟨F32.fin (16106127 / 268435456), F32.fin (5452595 / 4194304),
          F32.fin (5368709 / 134217728), F32.fin (16106127 / 134217728),
          Binary32.angleLimitOf 540, F32.fin (5033165 / 16777216)⟩
        (fun _ => ⟨0, 0, 255, 16384⟩) Binary32.initState 2 =
          ⟨F32.fin x, F32.fin g, F32.fin k⟩ ∧
      |x| ≤ limit ∧ (-1 ≤ g ∧ g ≤ 1) ∧ (-1 ≤ k ∧ k ≤ 1) :=
  shaper_state_invariant_binary32 (fun x _ => x)
    (fun x _ h0 h1 _ => ⟨x, rfl, h0, h1⟩)
    ⟨F32.fin (16106127 / 268435456), F32.fin (5452595 / 4194304),
      F32.fin (5368709 / 134217728), F32.fin (16106127 / 134217728),
      Binary32.angleLimitOf 540, F32.fin (5033165 / 16777216)⟩
    (16106127 / 268435456) (5452595 / 4194304) (5368709 / 134217728)
    (16106127 / 134217728) (5033165 / 16777216) 540
    rfl
    (by
      have h := F32.roundQ_dyadic 16106127 (-28) (by norm_num) (by norm_num) (by norm_num)
      have e : ((16106127 : ℤ) : ℚ) * 2 ^ (-28 : ℤ) = 16106127 / 268435456 := by norm_num
      rwa [e] at h)
    (by norm_num) rfl (by norm_num) rfl (by norm_num) rfl rfl rfl
    (fun _ => ⟨0, 0, 255, 16384⟩) (fun _ => (by decide : Gamepad.wf ⟨0, 0, 255, 16384⟩)) 2

/-- C2. Deadzone collapse: a normalised stick value whose magnitude is below
the deadzone leaves the deadzone stage as exactly `0`. -/
theorem deadzone_collapse (v deadzone : ℝ) (h : |v| < deadzone) :
    deadzoneStage v deadzone = 0 :=
  deadzoneStage_of_lt h

theorem deadzone_collapse_witness :
    |(1 / 100 : ℝ)| < 0.06 ∧ deadzoneStage (1 / 100 : ℝ) 0.06 = 0 :=
  have h : |(1 / 100 : ℝ)| < 0.06 := by rw [abs_of_pos (by norm_num)]; norm_num
  ⟨h, deadzone_collapse (1 / 100) 0.06 h⟩

/-- C3. Deadzone rescale: for a deadzone in `[0,1)` the stage maps `deadzone`
to `0`, `1` to `1`, `-1` to `-1`; on `deadzone ≤ |v| ≤ |w| ≤ 1` its magnitude is
monotone in the magnitude of the input; it equals
`sign(v) * (|v| - deadzone) / (1 - deadzone)` from the deadzone on, so the
output never has the opposite sign of the input and has exactly the sign of
the input beyond the deadzone. -/
theorem deadzone_rescale (deadzone : ℝ) (h0 : 0 ≤ deadzone) (h1 : deadzone < 1) :
    deadzoneStage deadzone deadzone = 0 ∧
      deadzoneStage 1 deadzone = 1 ∧
      deadzoneStage (-1) deadzone = -1 ∧
      (∀ v w : ℝ, deadzone ≤ |v| → |v| ≤ |w| → |w| ≤ 1 →
        |deadzoneStage v deadzone| ≤ |deadzoneStage w deadzone|) ∧
      (∀ v : ℝ, deadzone ≤ |v| →
        deadzoneStage v deadzone =
          (SignType.sign v : ℝ) * ((|v| - deadzone) / (1 - deadzone))) ∧
      (∀ v : ℝ, 0 ≤ v * deadzoneStage v deadzone) ∧
      (∀ v : ℝ, deadzone < |v| →
        SignType.sign (deadzoneStage v deadzone) = SignType.sign v) := by
  have hd : 0 < 1 - deadzone := by linarith
  have hcn : ∀ v : ℝ, v < 0 → ((SignType.sign v : SignType) : ℝ) = -1 := by
    intro v hv
    rw [sign_neg hv]
    simp
  have hcp : ∀ v : ℝ, 0 < v → ((SignType.sign v : SignType) : ℝ) = 1 := by
    intro v hv
    rw [sign_pos hv]
    simp
  have key : ∀ v : ℝ, deadzone ≤ |v| →
      deadzoneStage v deadzone =
        (SignType.sign v : ℝ) * ((|v| - deadzone) / (1 - deadzone)) := by
    intro v hv
    unfold deadzoneStage
    rw [if_neg (not_lt.mpr hv)]
    rcases lt_trichotomy v 0 with hneg | hzero | hpos
    · rw [if_neg (not_lt.mpr hneg.le), hcn v hneg]
      ring
    · subst hzero
      have hdz : deadzone = 0 := le_antisymm (by simpa using hv) h0
      subst hdz
      simp
    · rw [if_pos hpos, hcp v hpos]
      ring
  have habs : ∀ v : ℝ, deadzone ≤ |v| →
      |deadzoneStage v deadzone| = (|v| - deadzone) / (1 - deadzone) := by
    intro v hv
    have hq : 0 ≤ (|v| - deadzone) / (1 - deadzone) :=
      div_nonneg (by linarith) hd.le
    rw [key v hv, abs_mul, abs_of_nonneg hq]
    rcases lt_trichotomy v 0 with hneg | hzero | hpos
    · rw [hcn v hneg]; simp
    · subst hzero
      have hdz : deadzone = 0 := le_antisymm (by simpa using hv) h0
      subst hdz
      simp
    · rw [hcp v hpos]; simp
  refine ⟨?_, ?_, ?_, ?_, key, ?_, ?_⟩
  · rw [key deadzone (by rw [abs_of_nonneg h0]), abs_of_nonneg h0]
    simp
  · rw [key 1 (by rw [abs_one]; exact h1.le), abs_one]
    simp [div_self hd.ne']
  · rw [key (-1) (by rw [abs_neg, abs_one]; exact h1.le), abs_neg, abs_one]
    simp [div_self hd.ne']
  · intro v w hv hvw _
    rw [habs v hv, habs w (le_trans hv hvw)]
    exact div_le_div_of_nonneg_right (by linarith) hd.le
  · intro v
    by_cases hv : deadzone ≤ |v|
    · rw [key v hv]
      have hq : 0 ≤ (|v| - deadzone) / (1 - deadzone) :=
        div_nonneg (by linarith) hd.le
      rcases lt_trichotomy v 0 with hneg | hzero | hpos
      · rw [hcn v hneg]
        nlinarith
      · subst hzero; simp
      · rw [hcp v hpos]
        nlinarith
    · rw [deadzoneStage_of_lt (not_le.mp hv)]
      simp
  · intro v hv
    have hq : 0 < (|v| - deadzone) / (1 - deadzone) := div_pos (by linarith) hd
    have hv0 : v ≠ 0 := by
      intro h
      rw [h, abs_zero] at hv
      linarith
    rw [key v hv.le]
    rcases lt_or_gt_of_ne hv0 with hneg | hpos
    · rw [hcn v hneg, sign_neg hneg]
      apply sign_neg
      linarith
    · rw [hcp v hpos, sign_pos hpos]
      apply sign_pos
      linarith

theorem deadzone_rescale_witness :
    deadzoneStage (0.06 : ℝ) 0.06 = 0 ∧ deadzoneStage (1 : ℝ) 0.06 = 1 ∧
      deadzoneStage (-1 : ℝ) 0.06 = -1 :=
  have h := deadzone_rescale 0.06 (by norm_num) (by norm_num)
  ⟨h.1, h.2.1, h.2.2.1⟩

/-- C4. The response curve is odd and fixes zero: for every `v` and every
exponent `gamma > 0`, `apply_gamma(-v, gamma) = -apply_gamma(v, gamma)` and
`apply_gamma(0, gamma) = 0`. -/
theorem apply_gamma_odd (v gamma : ℝ) (hg : 0 < gamma) :
    apply_gamma Real.rpow (-v) gamma = -apply_gamma Real.rpow v gamma ∧
      apply_gamma Real.rpow 0 gamma = 0 := by
  have hz : apply_gamma Real.rpow 0 gamma = 0 := by
    simp [apply_gamma, Real.rpow_eq_pow, Real.zero_rpow hg.ne']
  refine ⟨?_, hz⟩
  rcases lt_trichotomy v 0 with hneg | hzero | hpos
  · have h1 : (0 : ℝ) ≤ -v := by linarith
    simp only [apply_gamma, abs_neg, ge_iff_le]
    rw [if_pos h1, if_neg (not_le.mpr hneg)]
    ring
  · subst hzero
    rw [neg_zero, hz, neg_zero]
  · have h1 : ¬ (0 : ℝ) ≤ -v := by linarith
    simp only [apply_gamma, abs_neg, ge_iff_le]
    rw [if_neg h1, if_pos hpos.le]
    ring

theorem apply_gamma_odd_witness :
    apply_gamma Real.rpow (-(1 / 2 : ℝ)) 1.3 = -apply_gamma Real.rpow (1 / 2 : ℝ) 1.3 ∧
      apply_gamma Real.rpow 0 (1.3 : ℝ) = 0 :=
  apply_gamma_odd (1 / 2) 1.3 (by norm_num)

/-- C5. The centering step never grows or flips the position: with
`centerSpring` in `[0,1]` and a position within the travel limit (any travel
limit, in particular one in `(0,1]`), a tick whose deadzone-normalised stick
value is exactly `0` yields a position of no larger magnitude and of the same sign (or `0`); under
sustained zero input the magnitude is non-increasing from tick to tick and
the position never crosses to the other side of the centre. -/
theorem centering_never_grows (cfg : Config ℝ) (snaps : Nat → Gamepad) (st : State ℝ)
    (hc : 0 ≤ cfg.centerSpring ∧ cfg.centerSpring ≤ 1)
    (hp : |st.steer| ≤ cfg.angleLimit)
    (hz : ∀ i, deadzoneStage (rawStick (snaps i).sThumbLX) cfg.deadzone = 0) :
    (|(tick Real.rpow cfg (snaps 0) st).steer| ≤ |st.steer| ∧
        0 ≤ st.steer * (tick Real.rpow cfg (snaps 0) st).steer) ∧
      ∀ n : Nat,
        |(stateAfter Real.rpow cfg snaps st (n + 1)).steer| ≤
            |(stateAfter Real.rpow cfg snaps st n).steer| ∧
          0 ≤ (stateAfter Real.rpow cfg snaps st n).steer *
            (stateAfter Real.rpow cfg snaps st (n + 1)).steer ∧
          0 ≤ st.steer * (stateAfter Real.rpow cfg snaps st n).steer := by
  have step : ∀ n : Nat,
      |(stateAfter Real.rpow cfg snaps st (n + 1)).steer| ≤
          |(stateAfter Real.rpow cfg snaps st n).steer| ∧
        0 ≤ (stateAfter Real.rpow cfg snaps st n).steer *
          (stateAfter Real.rpow cfg snaps st (n + 1)).steer := by
    intro n
    obtain ⟨q, hq0, hq1, hq⟩ := centering_factor Real.rpow cfg snaps st hc.1 hc.2 hp hz n
    have hq1' : q ≤ 1 := by linarith [hc.1]
    rw [hq, abs_mul, abs_of_nonneg hq0]
    constructor
    · have := abs_nonneg (stateAfter Real.rpow cfg snaps st n).steer
      nlinarith
    · have := mul_self_nonneg (stateAfter Real.rpow cfg snaps st n).steer
      nlinarith
  have side : ∀ n : Nat, 0 ≤ st.steer * (stateAfter Real.rpow cfg snaps st n).steer := by
    intro n
    induction n with
    | zero => exact mul_self_nonneg st.steer
    | succ n ih =>
      obtain ⟨q, hq0, _, hq⟩ := centering_factor Real.rpow cfg snaps st hc.1 hc.2 hp hz n
      rw [hq, ← mul_assoc]
      exact mul_nonneg ih hq0
  exact ⟨step 0, fun n => ⟨(step n).1, (step n).2, side n⟩⟩

theorem centering_never_grows_witness :
    |(tick Real.rpow (loadConfig none none none none 540 none)
        zeroGamepad ⟨0.5, -1, -1⟩).steer| ≤ |(0.5 : ℝ)| ∧
      0 ≤ (0.5 : ℝ) * (tick Real.rpow (loadConfig none none none none 540 none)
        zeroGamepad ⟨0.5, -1, -1⟩).steer :=
  (centering_never_grows (loadConfig none none none none 540 none) (fun _ => zeroGamepad)
    ⟨0.5, -1, -1⟩
    (by norm_num [loadConfig, iniFloat])
    (by
      have h : |(0.5 : ℝ)| = 0.5 := abs_of_pos (by norm_num)
      simp only [h]
      norm_num [loadConfig, angleLimitOf, clamp])
    (by
      intro i
      norm_num [loadConfig, iniFloat, zeroGamepad, rawStick, deadzoneStage])).1

/-- On the binary32 reading even left lock need not converge: with deadzone
`0`, the steering coefficient `2^-149` (in `(0,1]`, what `iniFloat` returns for
`alpha=1e-45`), the travel limit `0.1f` of `max_angle=90` and no modifier held,
full left lock leaves a centred wheel at `0` on every pass, because the
increment `-0.1f * 2^-149` underflows to `0`. This is why the amended full-lock
statement is about exact arithmetic. (`powf` is any function with
`powf(1, y) = 1`.) -/
theorem left_lock_stall_binary32 :
    ((0 : ℚ) < Binary32.denormMin ∧ Binary32.denormMin ≤ 1) ∧
      Binary32.angleLimitOf 90 = F32.fin (13421773 / 134217728) ∧
      (∀ (powf : F32 → F32 → F32), (∀ y, powf (F32.fin 1) y = F32.fin 1) →
        ∀ (cfg : Config F32) (snaps : Nat → Gamepad) (st : State F32),
          cfg.deadzone = F32.fin 0 → cfg.alphaWheelBase = F32.fin Binary32.denormMin →
          cfg.angleLimit = Binary32.angleLimitOf 90 →
          (∀ i, (snaps i).sThumbLX = -32768 ∧ (snaps i).wButtons = 0) →
          st.steer = F32.fin 0 →
          ∀ n, (Binary32.stateAfter powf cfg snaps st n).steer = F32.fin 0) := by
  refine ⟨⟨by norm_num [Binary32.denormMin], by norm_num [Binary32.denormMin]⟩,
    Binary32.angleLimitOf_90, ?_⟩
  intro powf hpow cfg snaps st hd ha hL hs h0 n
  induction n with
  | zero => exact h0
  | succ n ih =>
    simp only [Binary32.stateAfter, Binary32.tick, hd, (hs n).1, (hs n).2,
      Binary32.deadzoneStage_left_lock, ih]
    exact Binary32.steerStep_left_lock_stall powf hpow cfg ha hL

/-- C9, as the claim states it, fails: in the spec scenario (default
configuration, centred wheel, `sThumbLX = 16384`, no modifier) the target the
tick computes is not within `0.0005` of `0.206` and the position after the
tick is not within `0.000005` of `0.00824`. -/
theorem scenario_first_tick_counterexample :
    ¬ (|apply_gamma Real.rpow
          (deadzoneStage (rawStick 16384)
            (loadConfig none none none none 540 none : Config ℝ).deadzone)
          (loadConfig none none none none 540 none : Config ℝ).gamma *
          (loadConfig none none none none 540 none : Config ℝ).angleLimit - 0.206| < 0.0005) ∧
      ¬ (|(tick Real.rpow (loadConfig none none none none 540 none) ⟨0, 0, 0, 16384⟩
          initState).steer - 0.00824| < 0.000005) := by
  obtain ⟨hlo, _⟩ := rpow_scenario_bounds
  obtain ⟨ht, hp⟩ := scenario_values
  rw [ht, hp]
  constructor
  · intro h
    have := (abs_lt.mp h).2
    linarith
  · intro h
    have := (abs_lt.mp h).2
    linarith

/-- C9, amended. In the spec scenario the tick computes
`target = ((0.5 - 0.06) / 0.94) ^ 1.3 * 0.6` and the new position
`target * 0.04`; the target is approximately `0.2237` (within `0.0005`) and
the position after tick 1 approximately `0.008946` (within `0.000005`). -/
theorem scenario_first_tick :
    apply_gamma Real.rpow
        (deadzoneStage (rawStick 16384)
          (loadConfig none none none none 540 none : Config ℝ).deadzone)
        (loadConfig none none none none 540 none : Config ℝ).gamma *
        (loadConfig none none none none 540 none : Config ℝ).angleLimit =
      ((0.5 - 0.06) / 0.94 : ℝ) ^ (1.3 : ℝ) * 0.6 ∧
    (tick Real.rpow (loadConfig none none none none 540 none) ⟨0, 0, 0, 16384⟩
        initState).steer =
      ((0.5 - 0.06) / 0.94 : ℝ) ^ (1.3 : ℝ) * 0.6 * 0.04 ∧
    |apply_gamma Real.rpow
        (deadzoneStage (rawStick 16384)
          (loadConfig none none none none 540 none : Config ℝ).deadzone)
        (loadConfig none none none none 540 none : Config ℝ).gamma *
        (loadConfig none none none none 540 none : Config ℝ).angleLimit - 0.2237| < 0.0005 ∧
    |(tick Real.rpow (loadConfig none none none none 540 none) ⟨0, 0, 0, 16384⟩
        initState).steer - 0.008946| < 0.000005 := by
  obtain ⟨hlo, hhi⟩ := rpow_scenario_bounds
  obtain ⟨ht, hp⟩ := scenario_values
  have hx : ((0.5 - 0.06) / 0.94 : ℝ) = 22 / 47 := by norm_num
  rw [ht, hp, hx]
  refine ⟨rfl, rfl, ?_, ?_⟩
  · rw [abs_lt]
    constructor <;> linarith
  · rw [abs_lt]
    constructor <;> linarith

/-- C10. Modifier multiplier: the smoothing coefficient of a tick is
`base * 1.5` with only X held, `base * 0.5` with only B held, `base` with
neither, and `base * 0.75` with both. -/
theorem modifier_multiplier (base : ℝ) (wButtons : Nat) :
    (wButtons &&& XINPUT_GAMEPAD_X ≠ 0 → wButtons &&& XINPUT_GAMEPAD_B = 0 →
        alphaWheelCurrent base wButtons = base * 1.5) ∧
      (wButtons &&& XINPUT_GAMEPAD_X = 0 → wButtons &&& XINPUT_GAMEPAD_B ≠ 0 →
        alphaWheelCurrent base wButtons = base * 0.5) ∧
      (wButtons &&& XINPUT_GAMEPAD_X = 0 → wButtons &&& XINPUT_GAMEPAD_B = 0 →
        alphaWheelCurrent base wButtons = base) ∧
      (wButtons &&& XINPUT_GAMEPAD_X ≠ 0 → wButtons &&& XINPUT_GAMEPAD_B ≠ 0 →
        alphaWheelCurrent base wButtons = base * 0.75) := by
  refine ⟨?_, ?_, ?_, ?_⟩
  · intro hx hb
    simp [alphaWheelCurrent, hx, hb]
  · intro hx hb
    simp [alphaWheelCurrent, hx, hb]
  · intro hx hb
    simp [alphaWheelCurrent, hx, hb]
  · intro hx hb
    simp only [alphaWheelCurrent, bne_iff_ne, ne_eq, hx, hb, not_false_eq_true, if_true]
    ring

theorem modifier_multiplier_witness :
    alphaWheelCurrent (0.04 : ℝ) 0x4000 = 0.04 * 1.5 ∧
      alphaWheelCurrent (0.04 : ℝ) 0x2000 = 0.04 * 0.5 ∧
      alphaWheelCurrent (0.04 : ℝ) 0 = 0.04 ∧
      alphaWheelCurrent (0.04 : ℝ) 0x6000 = 0.04 * 0.75 :=
  ⟨(modifier_multiplier 0.04 0x4000).1 (by decide) (by decide),
   (modifier_multiplier 0.04 0x2000).2.1 (by decide) (by decide),
   (modifier_multiplier 0.04 0).2.2.1 (by decide) (by decide),
   (modifier_multiplier 0.04 0x6000).2.2.2 (by decide) (by decide)⟩

/-- C11, as the claim states it, fails on the binary32 reading: at the
binary32 number `v = 1 - 2^-24` the sum `v + 1.f` rounds to `2`, so the code
returns `32767`, whereas the truncation of `(clamp(v,-1,1) + 1) * 16383.5` is
`32766`. -/
theorem normAxis_rounding_counterexample :
    F32.rnd (16777215 / 16777216) = F32.fin (16777215 / 16777216) ∧
      Binary32.normAxis (F32.fin (16777215 / 16777216)) = some 32767 ∧
      ⌊(clamp (16777215 / 16777216 : ℚ) (-1) 1 + 1) * 16383.5⌋ = 32766 := by
  refine ⟨?_, Binary32.normAxis_below_one, ?_⟩
  · exact F32.rnd_exact _ 16777215 (-24) (by norm_num) (by norm_num) (by norm_num)
      (by norm_num) (by norm_num)
  · norm_num [clamp, Int.floor_eq_iff]

/-- C11, amended. On the binary32 reading, for every finite input `v`, also
outside `[-1,1]`: `normAxis v` is an integer in `[0, 32767]`; it is `0` for
`v ≤ -1` and `32767` for `v ≥ 1`; it is monotonically non-decreasing in `v`; and
it is the truncation (a floor, the argument being non-negative) of the
binary32 product `fl(fl(clamp(v,-1,1) + 1) * 16383.5)`, each operation rounded
to binary32. -/
theorem normAxis_domain_binary32 :
    (∀ v : ℚ, ∃ n : Int, Binary32.normAxis (F32.fin v) = some n ∧ 0 ≤ n ∧ n ≤ 32767) ∧
      (∀ v : ℚ, v ≤ -1 → Binary32.normAxis (F32.fin v) = some 0) ∧
      (∀ v : ℚ, 1 ≤ v → Binary32.normAxis (F32.fin v) = some 32767) ∧
      (∀ (v w : ℚ) (n m : Int), v ≤ w → Binary32.normAxis (F32.fin v) = some n →
        Binary32.normAxis (F32.fin w) = some m → n ≤ m) ∧
      (∀ v : ℚ, Binary32.normAxis (F32.fin v) =
        some ⌊F32.roundQ (F32.roundQ (clamp v (-1) 1 + 1) * 16383.5)⌋) := by
  have hab : (-1 : ℚ) ≤ 1 := by norm_num
  refine ⟨?_, ?_, ?_, ?_, fun v => (Binary32.normAxis_fin v).1⟩
  · intro v
    obtain ⟨hf, h0, h1⟩ := Binary32.normAxis_fin v
    refine ⟨_, hf, Int.floor_nonneg.mpr h0, ?_⟩
    have h2 : ((⌊F32.roundQ (F32.roundQ (clamp v (-1) 1 + 1) * 16383.5)⌋ : Int) : ℚ) ≤
        ((32767 : Int) : ℚ) := by
      push_cast
      exact le_trans (Int.floor_le _) h1
    exact_mod_cast h2
  · intro v hv
    rw [(Binary32.normAxis_fin v).1, clamp_of_le_left hv hab]
    norm_num [F32.roundQ_zero]
  · intro v hv
    have h2 : F32.roundQ 2 = 2 := by
      have := F32.roundQ_two_zpow 1 (by norm_num)
      simpa using this
    have hmax : F32.roundQ 32767 = 32767 := by
      have := F32.roundQ_dyadic 32767 0 (by norm_num) (by norm_num) (by norm_num)
      simpa using this
    rw [(Binary32.normAxis_fin v).1, clamp_of_ge_right hv hab]
    have e1 : ((1 : ℚ) + 1) = 2 := by norm_num
    have e2 : ((2 : ℚ) * 16383.5) = 32767 := by norm_num
    rw [e1, h2, e2, hmax]
    norm_num
  · intro v w n m hvw hn hm
    rw [(Binary32.normAxis_fin v).1] at hn
    rw [(Binary32.normAxis_fin w).1] at hm
    have hn2 := Option.some.inj hn
    have hm2 := Option.some.inj hm
    rw [← hn2, ← hm2]
    apply Int.floor_le_floor
    apply F32.roundQ_mono
    apply mul_le_mul_of_nonneg_right _ (by norm_num)
    apply F32.roundQ_mono
    linarith [clamp_mono hvw hab]

theorem normAxis_domain_binary32_witness :
    Binary32.normAxis (F32.fin (-3)) = some 0 ∧ Binary32.normAxis (F32.fin 7) = some 32767 :=
  ⟨normAxis_domain_binary32.2.1 (-3) (by norm_num),
    normAxis_domain_binary32.2.2.1 7 (by norm_num)⟩

/-- The encoder on the exact-arithmetic reading: range, end values and
monotonicity as on the binary32 reading, and there the value is the floor of
`(clamp(v,-1,1) + 1) * 16383.5` itself. -/
theorem normAxis_domain :
    (∀ v : ℝ, 0 ≤ normAxis v ∧ normAxis v ≤ 32767) ∧
      (∀ v : ℝ, v ≤ -1 → normAxis v = 0) ∧
      (∀ v : ℝ, 1 ≤ v → normAxis v = 32767) ∧
      (∀ v w : ℝ, v ≤ w → normAxis v ≤ normAxis w) ∧
      (∀ v : ℝ, normAxis v = toLONG ((clamp v (-1) 1 + 1) * 16383.5) ∧
        normAxis v = ⌊(clamp v (-1) 1 + 1) * 16383.5⌋) := by
  have hab : (-1 : ℝ) ≤ 1 := by norm_num
  refine ⟨?_, ?_, ?_, ?_, ?_⟩
  · intro v
    obtain ⟨hf, h0, h1⟩ := normAxis_eq_floor v
    rw [hf]
    refine ⟨Int.floor_nonneg.mpr h0, ?_⟩
    have h2 : ((⌊(clamp v (-1) 1 + 1) * 16383.5⌋ : Int) : ℝ) ≤ ((32767 : Int) : ℝ) := by
      push_cast
      exact le_trans (Int.floor_le _) h1
    exact_mod_cast h2
  · intro v hv
    rw [(normAxis_eq_floor v).1, clamp_of_le_left hv hab]
    norm_num
  · intro v hv
    rw [(normAxis_eq_floor v).1, clamp_of_ge_right hv hab]
    norm_num
  · intro v w hvw
    rw [(normAxis_eq_floor v).1, (normAxis_eq_floor w).1]
    apply Int.floor_le_floor
    exact mul_le_mul_of_nonneg_right (by linarith [clamp_mono hvw hab]) (by norm_num)
  · intro v
    exact ⟨rfl, (normAxis_eq_floor v).1⟩

/-- C12. Travel-limit derivation: for every integer `max_angle` the travel
limit the loop uses is `clamp(maxAngleDeg / 900, 0.1, 1.0)`, so it lies in
`[0.1, 1.0]`, in particular in `(0, 1]`; for the default 540 it is `0.6`. -/
theorem travel_limit_derivation (deadzone gamma alpha centerSpring alphaPedal : Option ℝ)
    (maxAngleDeg : Int) :
    (loadConfig deadzone gamma alpha centerSpring maxAngleDeg alphaPedal).angleLimit =
        clamp ((maxAngleDeg : ℝ) / 900) 0.1 1.0 ∧
      (0.1 : ℝ) ≤
        (loadConfig deadzone gamma alpha centerSpring maxAngleDeg alphaPedal).angleLimit ∧
      (loadConfig deadzone gamma alpha centerSpring maxAngleDeg alphaPedal).angleLimit ≤ 1 ∧
      (0 : ℝ) <
        (loadConfig deadzone gamma alpha centerSpring maxAngleDeg alphaPedal).angleLimit ∧
      (loadConfig deadzone gamma alpha centerSpring 540 alphaPedal).angleLimit = (0.6 : ℝ) ∧
      (angleLimitOf 0 : ℝ) = 0.1 ∧ (angleLimitOf (-540) : ℝ) = 0.1 ∧
      (angleLimitOf 1000000 : ℝ) = 1 := by
  refine ⟨?_, (angleLimitOf_bounds maxAngleDeg).1, (angleLimitOf_bounds maxAngleDeg).2,
    angleLimitOf_pos maxAngleDeg, ?_, ?_, ?_, ?_⟩
  · simp only [loadConfig, angleLimitOf]
    norm_num
  · norm_num [loadConfig, angleLimitOf, clamp]
  · norm_num [angleLimitOf, clamp]
  · norm_num [angleLimitOf, clamp]
  · norm_num [angleLimitOf, clamp]

/-- C13, as the claim states it, fails: a `config.ini` that supplies
`deadzone=2`, `alpha=-1`, `center_spring=5` and `alpha=7` for the pedals is
loaded with exactly these values, and the configuration the loop uses violates
the documented invariant. -/
theorem config_not_clamped_counterexample :
    (loadConfig (some 2) none (some (-1)) (some 5) 540 (some 7) : Config ℝ).deadzone = 2 ∧
      (loadConfig (some 2) none (some (-1)) (some 5) 540 (some 7) : Config ℝ).alphaWheelBase
        = -1 ∧
      (loadConfig (some 2) none (some (-1)) (some 5) 540 (some 7) : Config ℝ).centerSpring
        = 5 ∧
      (loadConfig (some 2) none (some (-1)) (some 5) 540 (some 7) : Config ℝ).alphaPedal = 7 ∧
      ¬ (loadConfig (some 2) none (some (-1)) (some 5) 540 (some 7) : Config ℝ).inDomain := by
  refine ⟨rfl, rfl, rfl, rfl, ?_⟩
  intro h
  have h1 : (loadConfig (some 2) none (some (-1)) (some 5) 540 (some 7) : Config ℝ).deadzone
      < 1 := h.1.2
  norm_num [loadConfig, iniFloat] at h1

/-- C13, amended. The configuration the loop uses takes deadzone, gamma,
steering alpha, centering spring and pedal alpha exactly as supplied (the
default when the key is missing), without clamping; only the travel limit is
clamped: it is the value of `[0.1, 1]` nearest to `max_angle / 900`, hence in
`(0,1]`. So the documented invariant holds exactly when the supplied (or
default) deadzone is in `[0,1)` and the three coefficients are in `[0,1]`; it
holds for the defaults. -/
theorem config_values_as_supplied (deadzone gamma alpha centerSpring alphaPedal : Option ℝ)
    (maxAngleDeg : Int) :
    (loadConfig deadzone gamma alpha centerSpring maxAngleDeg alphaPedal).deadzone =
        deadzone.getD 0.06 ∧
      (loadConfig deadzone gamma alpha centerSpring maxAngleDeg alphaPedal).gamma =
        gamma.getD 1.3 ∧
      (loadConfig deadzone gamma alpha centerSpring maxAngleDeg alphaPedal).alphaWheelBase =
        alpha.getD 0.04 ∧
      (loadConfig deadzone gamma alpha centerSpring maxAngleDeg alphaPedal).centerSpring =
        centerSpring.getD 0.12 ∧
      (loadConfig deadzone gamma alpha centerSpring maxAngleDeg alphaPedal).alphaPedal =
        alphaPedal.getD 0.3 ∧
      ((0.1 : ℝ) ≤
          (loadConfig deadzone gamma alpha centerSpring maxAngleDeg alphaPedal).angleLimit ∧
        (loadConfig deadzone gamma alpha centerSpring maxAngleDeg alphaPedal).angleLimit ≤ 1 ∧
        ∀ y : ℝ, 0.1 ≤ y → y ≤ 1 →
          |(loadConfig deadzone gamma alpha centerSpring maxAngleDeg alphaPedal).angleLimit -
              (maxAngleDeg : ℝ) / 900| ≤ |y - (maxAngleDeg : ℝ) / 900|) ∧
      ((loadConfig deadzone gamma alpha centerSpring maxAngleDeg alphaPedal).inDomain ↔
        (0 ≤ deadzone.getD 0.06 ∧ deadzone.getD 0.06 < 1) ∧
          (0 ≤ alpha.getD 0.04 ∧ alpha.getD 0.04 ≤ 1) ∧
          (0 ≤ centerSpring.getD 0.12 ∧ centerSpring.getD 0.12 ≤ 1) ∧
          (0 ≤ alphaPedal.getD 0.3 ∧ alphaPedal.getD 0.3 ≤ 1)) ∧
      (loadConfig none none none none maxAngleDeg none : Config ℝ).inDomain := by
  have hget : ∀ (o : Option ℝ) (d : ℝ), iniFloat o d = o.getD d := by
    intro o d
    cases o <;> rfl
  have hL0 : (0 : ℝ) < angleLimitOf maxAngleDeg := angleLimitOf_pos maxAngleDeg
  have hL : (0.1 : ℝ) ≤ angleLimitOf maxAngleDeg ∧ (angleLimitOf maxAngleDeg : ℝ) ≤ 1 :=
    angleLimitOf_bounds maxAngleDeg
  refine ⟨hget _ _, hget _ _, hget _ _, hget _ _, hget _ _, ⟨hL.1, hL.2, ?_⟩, ?_, ?_⟩
  · intro y hy0 hy1
    exact clamp_nearest _ hy0 hy1
  · simp only [Config.inDomain, loadConfig, hget]
    constructor
    · intro h
      exact ⟨h.1, h.2.1, h.2.2.1, h.2.2.2.1⟩
    · intro h
      exact ⟨h.1, h.2.1, h.2.2.1, h.2.2.2, hL0, hL.2⟩
  · simp only [Config.inDomain, loadConfig, iniFloat]
    refine ⟨by norm_num, by norm_num, by norm_num, by norm_num, hL0, hL.2⟩

/-- C14. Channel independence: in one tick the new gas position is determined
by the previous gas position, the right trigger and the pedal coefficient, the
new brake position by the previous brake position, the left trigger and the
pedal coefficient, and the new steering position does not depend on the
triggers or the pedal positions (nor on the pedal coefficient); so two runs
whose snapshots differ only in the brake trigger have the same gas and
steering positions at every tick, and symmetrically for the gas trigger. -/
theorem channel_independence :
    (∀ (cfg cfg2 : Config ℝ) (s s2 : Gamepad) (st st2 : State ℝ),
        cfg.alphaPedal = cfg2.alphaPedal → s.bRightTrigger = s2.bRightTrigger →
        st.gas = st2.gas →
        (tick Real.rpow cfg s st).gas = (tick Real.rpow cfg2 s2 st2).gas) ∧
      (∀ (cfg cfg2 : Config ℝ) (s s2 : Gamepad) (st st2 : State ℝ),
        cfg.alphaPedal = cfg2.alphaPedal → s.bLeftTrigger = s2.bLeftTrigger →
        st.brake = st2.brake →
        (tick Real.rpow cfg s st).brake = (tick Real.rpow cfg2 s2 st2).brake) ∧
      (∀ (cfg : Config ℝ) (alphaPedal2 : ℝ) (s s2 : Gamepad) (st st2 : State ℝ),
        s.sThumbLX = s2.sThumbLX → s.wButtons = s2.wButtons → st.steer = st2.steer →
        (tick Real.rpow cfg s st).steer =
          (tick Real.rpow { cfg with alphaPedal := alphaPedal2 } s2 st2).steer) ∧
      (∀ (cfg : Config ℝ) (snaps snaps2 : Nat → Gamepad) (st : State ℝ),
        (∀ i, (snaps i).sThumbLX = (snaps2 i).sThumbLX ∧
          (snaps i).wButtons = (snaps2 i).wButtons ∧
          (snaps i).bRightTrigger = (snaps2 i).bRightTrigger) →
        ∀ n, (stateAfter Real.rpow cfg snaps st n).gas =
            (stateAfter Real.rpow cfg snaps2 st n).gas ∧
          (stateAfter Real.rpow cfg snaps st n).steer =
            (stateAfter Real.rpow cfg snaps2 st n).steer) ∧
      (∀ (cfg : Config ℝ) (snaps snaps2 : Nat → Gamepad) (st : State ℝ),
        (∀ i, (snaps i).sThumbLX = (snaps2 i).sThumbLX ∧
          (snaps i).wButtons = (snaps2 i).wButtons ∧
          (snaps i).bLeftTrigger = (snaps2 i).bLeftTrigger) →
        ∀ n, (stateAfter Real.rpow cfg snaps st n).brake =
            (stateAfter Real.rpow cfg snaps2 st n).brake ∧
          (stateAfter Real.rpow cfg snaps st n).steer =
            (stateAfter Real.rpow cfg snaps2 st n).steer) := by
  refine ⟨?_, ?_, ?_, ?_, ?_⟩
  · intro cfg cfg2 s s2 st st2 ha ht hg
    simp only [tick, ha, ht, hg]
  · intro cfg cfg2 s s2 st st2 ha ht hb
    simp only [tick, ha, ht, hb]
  · intro cfg a2 s s2 st st2 hx hw hs
    simp only [tick, steerStep, hx, hw, hs]
  · intro cfg snaps snaps2 st h n
    induction n with
    | zero => exact ⟨rfl, rfl⟩
    | succ n ih =>
      obtain ⟨hx, hw, ht⟩ := h n
      simp only [stateAfter, tick, hx, hw, ht, ih.1, ih.2]
      exact ⟨trivial, trivial⟩
  · intro cfg snaps snaps2 st h n
    induction n with
    | zero => exact ⟨rfl, rfl⟩
    | succ n ih =>
      obtain ⟨hx, hw, ht⟩ := h n
      simp only [stateAfter, tick, hx, hw, ht, ih.1, ih.2]
      exact ⟨trivial, trivial⟩

theorem channel_independence_witness :
    ∀ n, (stateAfter Real.rpow (loadConfig none none none none 540 none)
          (fun _ => ⟨0, 0, 200, 16384⟩) initState n).gas =
        (stateAfter Real.rpow (loadConfig none none none none 540 none)
          (fun _ => ⟨0, 255, 200, 16384⟩) initState n).gas ∧
      (stateAfter Real.rpow (loadConfig none none none none 540 none)
          (fun _ => ⟨0, 0, 200, 16384⟩) initState n).steer =
        (stateAfter Real.rpow (loadConfig none none none none 540 none)
          (fun _ => ⟨0, 255, 200, 16384⟩) initState n).steer :=
  channel_independence.2.2.2.1 (loadConfig none none none none 540 none)
    (fun _ => ⟨0, 0, 200, 16384⟩) (fun _ => ⟨0, 255, 200, 16384⟩) initState
    (fun _ => ⟨rfl, rfl, rfl⟩)

/-- C15. Complete emission every tick: for every snapshot and state, one pass
emits exactly one value for each axis (X steering, Y gas, Z brake), the
`normAxis` encoding of the updated position, and exactly one state for each of
the buttons 1 to 16, button `i + 1` being set to true iff bit `i` of the mask
is set; no other button is touched and nothing depends on whether a value
changed. -/
theorem complete_emission (cfg : Config ℝ) (s : Gamepad) (st : State ℝ) :
    axisValues (tickCalls Real.rpow cfg s st) HID_X =
        [normAxis (tick Real.rpow cfg s st).steer] ∧
      axisValues (tickCalls Real.rpow cfg s st) HID_Y =
        [normAxis (tick Real.rpow cfg s st).gas] ∧
      axisValues (tickCalls Real.rpow cfg s st) HID_Z =
        [normAxis (tick Real.rpow cfg s st).brake] ∧
      (∀ i, i < 16 →
        btnValues (tickCalls Real.rpow cfg s st) (i + 1) = [s.wButtons.testBit i]) ∧
      (∀ n, n = 0 ∨ 16 < n → btnValues (tickCalls Real.rpow cfg s st) n = []) ∧
      (tickCalls Real.rpow cfg s st).length = 19 ∧
      (loopBody Real.rpow cfg (some s) st).2 = tickCalls Real.rpow cfg s st := by
  obtain ⟨hx, hy, hz⟩ := tickCalls_axes Real.rpow cfg s st
  refine ⟨hx, hy, hz, ?_, ?_, ?_, rfl⟩
  · intro i hi
    rw [tickCalls_buttons, if_pos (by omega), Nat.add_sub_cancel]
  · intro n hn
    rw [tickCalls_buttons, if_neg (by omega)]
  · simp [tickCalls]

theorem complete_emission_witness :
    btnValues (tickCalls Real.rpow (loadConfig none none none none 540 none)
        ⟨0x4001, 0, 0, 0⟩ initState) (14 + 1) = [Nat.testBit 0x4001 14] ∧
      btnValues (tickCalls Real.rpow (loadConfig none none none none 540 none)
        ⟨0x4001, 0, 0, 0⟩ initState) 17 = [] :=
  ⟨(complete_emission (loadConfig none none none none 540 none) ⟨0x4001, 0, 0, 0⟩
      initState).2.2.2.1 14 (by decide),
    (complete_emission (loadConfig none none none none 540 none) ⟨0x4001, 0, 0, 0⟩
      initState).2.2.2.2.1 17 (by decide)⟩

/-- C16, as the claim states it, fails: the claim puts no condition on the
configuration, but with `deadzone=-1` (other keys at their defaults) a failed
read does not take the centering branch: the zero stick value is normalised to
`-1/2`, the tracking branch runs and a centred wheel moves to a negative
position, whereas the centering branch would leave it at `0`. And with the
pedal coefficient `-1` a failed read moves a gas pedal at `0` up to `1`, away
from `-1`. -/
theorem read_failure_counterexample :
    (deadzoneStage (rawStick (readSnapshot none).sThumbLX)
          (loadConfig (some (-1)) none none none 540 none : Config ℝ).deadzone = -1 / 2 ∧
        (loopBody Real.rpow (loadConfig (some (-1)) none none none 540 none) none
          initState).1.steer < 0 ∧
        clamp ((0 : ℝ) + (0 - 0) *
            (loadConfig (some (-1)) none none none 540 none : Config ℝ).centerSpring *
            clamp (|(0 : ℝ)| * 2.5) 0.15 1.0)
          (-(loadConfig (some (-1)) none none none 540 none : Config ℝ).angleLimit)
          (loadConfig (some (-1)) none none none 540 none : Config ℝ).angleLimit = 0) ∧
      (loopBody Real.rpow (loadConfig none none none none 540 (some (-1))) none
        ⟨0, 0, 0⟩).1.gas = (1 : ℝ) := by
  have hL : (loadConfig (some (-1)) none none none 540 none : Config ℝ).angleLimit = 0.6 := by
    norm_num [loadConfig, angleLimitOf, clamp]
  have hdz : deadzoneStage (rawStick (readSnapshot none).sThumbLX)
      (loadConfig (some (-1)) none none none 540 none : Config ℝ).deadzone = -1 / 2 := by
    norm_num [readSnapshot, zeroGamepad, rawStick, loadConfig, iniFloat, deadzoneStage]
  have hpow0 : (0 : ℝ) < (1 / 2 : ℝ) ^ (1.3 : ℝ) := Real.rpow_pos_of_pos (by norm_num) _
  have hpow1 : (1 / 2 : ℝ) ^ (1.3 : ℝ) ≤ 1 :=
    Real.rpow_le_one (by norm_num) (by norm_num) (by norm_num)
  have hg : apply_gamma Real.rpow (-1 / 2)
      (loadConfig (some (-1)) none none none 540 none : Config ℝ).gamma =
      -((1 / 2 : ℝ) ^ (1.3 : ℝ)) := by
    have habs : |(-1 / 2 : ℝ)| = 1 / 2 := by
      rw [abs_of_neg (by norm_num)]
      norm_num
    have hneg : ¬ ((-1 / 2 : ℝ) ≥ 0) := by norm_num
    simp only [apply_gamma, if_neg hneg, habs, Real.rpow_eq_pow, loadConfig, iniFloat]
    ring
  have ha : alphaWheelCurrent
      (loadConfig (some (-1)) none none none 540 none : Config ℝ).alphaWheelBase
      (readSnapshot none).wButtons = 0.04 := by
    simp [loadConfig, iniFloat, alphaWheelCurrent, readSnapshot, zeroGamepad]
  refine ⟨⟨hdz, ?_, ?_⟩, ?_⟩
  · have hstep : (loopBody Real.rpow (loadConfig (some (-1)) none none none 540 none) none
        initState).1.steer =
        steerStep Real.rpow (loadConfig (some (-1)) none none none 540 none) (-1 / 2)
          (readSnapshot none).wButtons 0 := by
      simp only [loopBody, tick, hdz, initState]
    rw [hstep, steerStep_track Real.rpow _ (-1 / 2) _ 0 (by norm_num)
      (by rw [ha]; norm_num) (by rw [ha]; norm_num)
      (by
        rw [hg, hL, abs_mul, abs_neg, abs_of_pos hpow0, abs_of_pos (by norm_num)]
        nlinarith)
      (by rw [hL, abs_zero]; norm_num), hg, hL, ha]
    nlinarith
  · rw [hL]
    norm_num [clamp]
  · simp only [loopBody, readSnapshot, tick, zeroGamepad, pedalStep_released, loadConfig,
      iniFloat]
    norm_num [clamp]

/-- C16, amended. A failed controller read degrades to neutral input: the pass
runs on the zero-initialised snapshot and hands over to the next pass like any
other; the stick value is `0`, and for a deadzone `≥ 0` the steering takes the
centering branch; both trigger pressures are `0`, each pedal takes a smoothing
step with target `-1`, and for a pedal coefficient in `[0,1]` and a pedal at or
above `-1` it does not rise and stays at or above `-1`; all sixteen buttons are
reported released. -/
theorem read_failure_neutral (cfg : Config ℝ) (st : State ℝ) :
    loopBody Real.rpow cfg none st =
        (tick Real.rpow cfg zeroGamepad st, tickCalls Real.rpow cfg zeroGamepad st) ∧
      (rawStick (readSnapshot none).sThumbLX : ℝ) = 0 ∧
      (0 ≤ cfg.deadzone →
        (loopBody Real.rpow cfg none st).1.steer =
          clamp (st.steer + (0 - st.steer) * cfg.centerSpring *
            clamp (|st.steer| * 2.5) 0.15 1.0) (-cfg.angleLimit) cfg.angleLimit) ∧
      (loopBody Real.rpow cfg none st).1.gas =
        clamp (st.gas + (-1 - st.gas) * cfg.alphaPedal) (-1) 1 ∧
      (loopBody Real.rpow cfg none st).1.brake =
        clamp (st.brake + (-1 - st.brake) * cfg.alphaPedal) (-1) 1 ∧
      (0 ≤ cfg.alphaPedal ∧ cfg.alphaPedal ≤ 1 → -1 ≤ st.gas →
        -1 ≤ (loopBody Real.rpow cfg none st).1.gas ∧
          (loopBody Real.rpow cfg none st).1.gas ≤ st.gas) ∧
      (0 ≤ cfg.alphaPedal ∧ cfg.alphaPedal ≤ 1 → -1 ≤ st.brake →
        -1 ≤ (loopBody Real.rpow cfg none st).1.brake ∧
          (loopBody Real.rpow cfg none st).1.brake ≤ st.brake) ∧
      (∀ i, i < 16 → btnValues (loopBody Real.rpow cfg none st).2 (i + 1) = [false]) := by
  have hab : (-1 : ℝ) ≤ 1 := by norm_num
  have hgas : (loopBody Real.rpow cfg none st).1.gas =
      clamp (st.gas + (-1 - st.gas) * cfg.alphaPedal) (-1) 1 := by
    simp only [loopBody, readSnapshot, tick, zeroGamepad, pedalStep_released]
  have hbrake : (loopBody Real.rpow cfg none st).1.brake =
      clamp (st.brake + (-1 - st.brake) * cfg.alphaPedal) (-1) 1 := by
    simp only [loopBody, readSnapshot, tick, zeroGamepad, pedalStep_released]
  have toward : ∀ p : ℝ, 0 ≤ cfg.alphaPedal ∧ cfg.alphaPedal ≤ 1 → -1 ≤ p →
      -1 ≤ clamp (p + (-1 - p) * cfg.alphaPedal) (-1) 1 ∧
        clamp (p + (-1 - p) * cfg.alphaPedal) (-1) 1 ≤ p := by
    intro p ha hp
    refine ⟨clamp_ge _ hab, ?_⟩
    have hv : p + (-1 - p) * cfg.alphaPedal ≤ p := by nlinarith [ha.1]
    unfold clamp
    split_ifs <;> linarith
  refine ⟨rfl, by simp [readSnapshot, rawStick, zeroGamepad], ?_, hgas, hbrake, ?_, ?_, ?_⟩
  · intro hd
    simp only [loopBody, readSnapshot, tick, deadzoneStage_zero cfg.deadzone hd, steerStep,
      if_true]
  · intro ha hp
    rw [hgas]
    exact toward st.gas ha hp
  · intro ha hp
    rw [hbrake]
    exact toward st.brake ha hp
  · intro i hi
    simp only [loopBody, readSnapshot]
    rw [tickCalls_buttons, if_pos (by omega)]
    simp [zeroGamepad]

theorem read_failure_neutral_witness :
    (loopBody Real.rpow (loadConfig none none none none 540 none) none
        ⟨0.5, 0.25, -1⟩).1.steer =
      clamp ((0.5 : ℝ) + (0 - 0.5) *
        (loadConfig none none none none 540 none : Config ℝ).centerSpring *
          clamp (|(0.5 : ℝ)| * 2.5) 0.15 1.0)
        (-(loadConfig none none none none 540 none : Config ℝ).angleLimit)
        (loadConfig none none none none 540 none : Config ℝ).angleLimit ∧
    (loopBody Real.rpow (loadConfig none none none none 540 none) none
        ⟨0.5, 0.25, -1⟩).1.gas ≤ (0.25 : ℝ) :=
  ⟨(read_failure_neutral (loadConfig none none none none 540 none) ⟨0.5, 0.25, -1⟩).2.2.1
      (by norm_num [loadConfig, iniFloat]),
    ((read_failure_neutral (loadConfig none none none none 540 none)
      ⟨0.5, 0.25, -1⟩).2.2.2.2.2.1 (by norm_num [loadConfig, iniFloat]) (by norm_num)).2⟩

/-- C18. The steering target stays within the travel limit: for every stick
reading `sThumbLX` in `[-32768, 32767]`, every deadzone below `1` (in
particular in `[0,1)`) and every `gamma > 0`, the deadzone-normalised value
`n` satisfies `|n| ≤ 1` and the tracking target `apply_gamma(n, gamma) * limit`
satisfies `|target| ≤ limit` for every travel limit `limit ≥ 0`, in particular
for the `angleLimit` derived from any `max_angle`. -/
theorem target_within_limit (sThumbLX : Int) (deadzone gamma : ℝ)
    (hx : -32768 ≤ sThumbLX ∧ sThumbLX ≤ 32767) (hd : deadzone < 1) (hg : 0 < gamma) :
    |deadzoneStage (rawStick sThumbLX) deadzone| ≤ 1 ∧
      (∀ limit : ℝ, 0 ≤ limit →
        |apply_gamma Real.rpow (deadzoneStage (rawStick sThumbLX) deadzone) gamma * limit|
          ≤ limit) ∧
      (∀ maxAngleDeg : Int,
        |apply_gamma Real.rpow (deadzoneStage (rawStick sThumbLX) deadzone) gamma *
          angleLimitOf maxAngleDeg| ≤ angleLimitOf maxAngleDeg) := by
  have hn : |deadzoneStage (rawStick sThumbLX : ℝ) deadzone| ≤ 1 :=
    deadzoneStage_abs_le_one _ _ (rawStick_abs_le_one sThumbLX hx.1 hx.2) hd
  exact ⟨hn, fun limit hL => target_abs_le _ _ _ hn hg.le hL,
    fun m => target_abs_le _ _ _ hn hg.le (angleLimitOf_pos m).le⟩

theorem target_within_limit_witness :
    |deadzoneStage (rawStick 32767 : ℝ) 0.06| ≤ 1 ∧
      |apply_gamma Real.rpow (deadzoneStage (rawStick 32767 : ℝ) 0.06) 1.3 * angleLimitOf 540|
        ≤ angleLimitOf 540 :=
  have h := target_within_limit 32767 0.06 1.3 (by decide) (by norm_num) (by norm_num)
  ⟨h.1, h.2.2 540⟩

/-- C19, as the claim states it, fails on the binary32 reading: with the
default deadzone `0.06f > 0` and an infinite pedal coefficient (what `iniFloat`
returns for `alpha=1e39`), a pass on the startup state with the neutral
snapshot turns both pedal positions from `-1` into not-a-number
(`0 * inf`), so the state is not kept. -/
theorem rest_state_nan_counterexample :
    (F32.rnd 0.06 = F32.fin (16106127 / 268435456) ∧ (0 : ℚ) < 16106127 / 268435456) ∧
      (∀ (powf : F32 → F32 → F32) (cfg : Config F32),
        cfg.deadzone = F32.rnd 0.06 → cfg.alphaPedal = F32.pinf →
        (Binary32.tick powf cfg zeroGamepad Binary32.initState).gas = F32.nan ∧
          (Binary32.tick powf cfg zeroGamepad Binary32.initState).brake = F32.nan ∧
          Binary32.tick powf cfg zeroGamepad Binary32.initState ≠ Binary32.initState) := by
  refine ⟨⟨Binary32.rnd_006, by norm_num⟩, ?_⟩
  intro powf cfg _ ha
  have hg : (Binary32.tick powf cfg zeroGamepad Binary32.initState).gas = F32.nan := by
    simp only [Binary32.tick, ha, zeroGamepad, Binary32.initState]
    exact Binary32.pedalStep_inf_rest
  have hb : (Binary32.tick powf cfg zeroGamepad Binary32.initState).brake = F32.nan := by
    simp only [Binary32.tick, ha, zeroGamepad, Binary32.initState]
    exact Binary32.pedalStep_inf_rest
  refine ⟨hg, hb, ?_⟩
  intro h
  rw [h] at hg
  simp [Binary32.initState] at hg

/-- C19, amended. On the binary32 reading, for every configuration with a
finite deadzone `≥ 0` (in particular `> 0`), a finite centering spring and a
finite pedal alpha, with the travel limit derived from any `max_angle`: a pass
on the startup state (steer `0`, gas and brake `-1`) with the neutral snapshot
leaves the state unchanged, and so does any number of such passes; the axis
values of every such pass are `normAxis(0) = 16383` for steering and
`normAxis(-1) = 0` for gas and brake, the values emitted at startup. -/
theorem rest_state_fixed_point_binary32 (powf : F32 → F32 → F32) (cfg : Config F32)
    (d cs ap : ℚ) (maxAngleDeg : Int)
    (hdz : cfg.deadzone = F32.fin d) (hd : 0 ≤ d) (hcs : cfg.centerSpring = F32.fin cs)
    (hap : cfg.alphaPedal = F32.fin ap)
    (hlim : cfg.angleLimit = Binary32.angleLimitOf maxAngleDeg) :
    Binary32.tick powf cfg zeroGamepad Binary32.initState = Binary32.initState ∧
      (∀ n, Binary32.stateAfter powf cfg (fun _ => zeroGamepad) Binary32.initState n =
        Binary32.initState) ∧
      (Binary32.normAxis (Binary32.tick powf cfg zeroGamepad Binary32.initState).steer =
          some 16383 ∧
        Binary32.normAxis (Binary32.tick powf cfg zeroGamepad Binary32.initState).gas =
          some 0 ∧
        Binary32.normAxis (Binary32.tick powf cfg zeroGamepad Binary32.initState).brake =
          some 0) ∧
      (Binary32.normAxis (F32.fin 0) = some 16383 ∧
        Binary32.normAxis (F32.fin (-1)) = some 0) := by
  obtain ⟨limit, hlimit, hl0, _⟩ := Binary32.angleLimitOf_fin maxAngleDeg
  have hfix := Binary32.tick32_rest powf cfg d cs ap limit hdz hd hcs hap
    (by rw [hlim, hlimit]) (le_trans (by norm_num) hl0)
  refine ⟨hfix, ?_, ?_, ⟨Binary32.normAxis32_zero, Binary32.normAxis32_neg_one⟩⟩
  · intro n
    induction n with
    | zero => rfl
    | succ n ih =>
      simp only [Binary32.stateAfter, ih]
      exact hfix
  · rw [hfix]
    exact ⟨Binary32.normAxis32_zero, Binary32.normAxis32_neg_one, Binary32.normAxis32_neg_one⟩

theorem rest_state_fixed_point_binary32_witness :
    Binary32.tick (fun x _ => x)
        ⟨F32.fin (16106127 / 268435456), F32.fin (5452595 / 4194304),
          F32.fin (5368709 / 134217728), F32.fin (16106127 / 134217728),
          Binary32.angleLimitOf 540, F32.fin (5033165 / 16777216)⟩
        zeroGamepad Binary32.initState = Binary32.initState :=
  (rest_state_fixed_point_binary32 (fun x _ => x)
    ⟨F32.fin (16106127 / 268435456), F32.fin (5452595 / 4194304),
      F32.fin (5368709 / 134217728), F32.fin (16106127 / 134217728),
      Binary32.angleLimitOf 540, F32.fin (5033165 / 16777216)⟩
    (16106127 / 268435456) (16106127 / 134217728) (5033165 / 16777216) 540
    rfl (by norm_num) rfl rfl rfl).1

/-- The rest state on the exact-arithmetic reading: there every configuration
with a deadzone `≥ 0` keeps it, because the exact field has no infinite
coefficient. -/
theorem rest_state_fixed_point (deadzone gamma alpha centerSpring alphaPedal : Option ℝ)
    (maxAngleDeg : Int)
    (hd : 0 ≤ (loadConfig deadzone gamma alpha centerSpring maxAngleDeg alphaPedal).deadzone) :
    tick Real.rpow (loadConfig deadzone gamma alpha centerSpring maxAngleDeg alphaPedal)
        zeroGamepad initState = initState ∧
      (∀ n, stateAfter Real.rpow
        (loadConfig deadzone gamma alpha centerSpring maxAngleDeg alphaPedal)
        (fun _ => zeroGamepad) initState n = initState) ∧
      (axisValues (tickCalls Real.rpow
          (loadConfig deadzone gamma alpha centerSpring maxAngleDeg alphaPedal)
          zeroGamepad initState) HID_X = [16383] ∧
        axisValues (tickCalls Real.rpow
          (loadConfig deadzone gamma alpha centerSpring maxAngleDeg alphaPedal)
          zeroGamepad initState) HID_Y = [0] ∧
        axisValues (tickCalls Real.rpow
          (loadConfig deadzone gamma alpha centerSpring maxAngleDeg alphaPedal)
          zeroGamepad initState) HID_Z = [0]) ∧
      (normAxis (0 : ℝ) = 16383 ∧ normAxis (-1 : ℝ) = 0) ∧
      initCalls ℝ = [Call.SetAxis 16383 VJOY_ID HID_X, Call.SetAxis 0 VJOY_ID HID_Y,
        Call.SetAxis 0 VJOY_ID HID_Z] := by
  have hL : (0 : ℝ) ≤
      (loadConfig deadzone gamma alpha centerSpring maxAngleDeg alphaPedal).angleLimit :=
    (angleLimitOf_pos maxAngleDeg).le
  have hfix := tick_rest Real.rpow
    (loadConfig deadzone gamma alpha centerSpring maxAngleDeg alphaPedal) hd hL
  obtain ⟨hx, hy, hz⟩ := tickCalls_axes Real.rpow
    (loadConfig deadzone gamma alpha centerSpring maxAngleDeg alphaPedal) zeroGamepad initState
  refine ⟨hfix, ?_, ?_, ⟨normAxis_zero, normAxis_neg_one⟩, ?_⟩
  · intro n
    induction n with
    | zero => rfl
    | succ n ih =>
      simp only [stateAfter, ih]
      exact hfix
  · rw [hx, hy, hz, hfix]
    simp only [initState, normAxis_zero, normAxis_neg_one]
    exact ⟨trivial, trivial, trivial⟩
  · simp only [initCalls, normAxis_zero, normAxis_neg_one]

end Contoller
